import Mathlib

/-!
Shallow embedding of the mod-list constraint core of `rimmanager`
(`src/managment.rs`): the `PackageId` identifier type, the `ModRelation`
constraint kinds, rule sets, the rule database, the violation detector
`ModList::find_list_issues`, and the repair loop `ModList::autofix`.

Modelling conventions:
* Rust `HashMap<K, V>` values are modelled as association lists
  `List (K × V)`; `insert` replaces the value of an existing key in place,
  otherwise appends.  Iteration order of a Rust `HashMap` is unspecified;
  the model iterates in list order.  All general theorems below are stated
  through keyed lookups, which are independent of that order.
* `IndexMap<K, V>` (order-preserving map) for the mod lists is modelled as
  `List PackageId`; the `CondensedModMetadata` payload never influences
  ordering, lookups or control flow in the algorithms and is elided.
* `usize` arithmetic is modelled on `Nat`; the one operation that can
  underflow in the source (`infinite_loop_checker -= 1`) is modelled with
  release-build wrap-around semantics (`wrapDec`).
* Every `.unwrap()` in `autofix` is modelled explicitly: a failing unwrap
  produces the `panicked` / `panic` result.  `autofix` loops are modelled
  with explicit fuel counting loop iterations; `fuelOut` means the loop was
  still running after the given number of iterations.
-/

/-- Association-list lookup, modelling `HashMap::get`. -/
def lookupA {κ : Type} {α : Type} [DecidableEq κ] (k : κ) : List (κ × α) → Option α
  | [] => none
  | (k', v) :: t => if k = k' then some v else lookupA k t

/-- Association-list insert, modelling `HashMap::insert`: replaces the value
of an existing key in place, otherwise appends. -/
def insertA {κ : Type} {α : Type} [DecidableEq κ] (k : κ) (v : α) : List (κ × α) → List (κ × α)
  | [] => [(k, v)]
  | (k', v') :: t => if k = k' then (k, v) :: t else (k', v') :: insertA k v t

/-- Association-list removal, modelling `HashMap::remove`. -/
def removeA {κ : Type} {α : Type} [DecidableEq κ] (k : κ) : List (κ × α) → List (κ × α)
  | [] => []
  | (k', v') :: t => if k = k' then t else (k', v') :: removeA k t

/-- The keys of an association list are pairwise distinct (the invariant of a
real `HashMap`, maintained by construction in the caches built below). -/
def NodupKeys {κ : Type} {α : Type} (l : List (κ × α)) : Prop :=
  (l.map Prod.fst).Nodup

/-- Element at a position, modelling `IndexMap::get_index`. -/
def getAt {α : Type} : List α → Nat → Option α
  | [], _ => none
  | x :: _, 0 => some x
  | _ :: xs, n + 1 => getAt xs n

/-- Removal by position (shifting the tail), used by `move_index`. -/
def eraseAt {α : Type} : List α → Nat → List α
  | [], _ => []
  | _ :: xs, 0 => xs
  | x :: xs, n + 1 => x :: eraseAt xs n

/-- Insertion at a position (shifting the tail), used by `move_index`. -/
def insertAt {α : Type} : List α → Nat → α → List α
  | l, 0, a => a :: l
  | [], _ + 1, a => [a]
  | x :: xs, n + 1, a => x :: insertAt xs n a

/-- Moves the element at index `i` so that it ends up at index `j`, shifting
the elements in between: `IndexMap::move_index`.  The source panics on
out-of-range indices; `autofix` only calls it with indices obtained from
successful `get_index_of` lookups, so the out-of-range case is unreachable
there and the model returns the list unchanged. -/
def move_index {α : Type} (l : List α) (i j : Nat) : List α :=
  match getAt l i with
  | none => l
  | some x => insertAt (eraseAt l i) j x

/-- Wrapping decrement of a `usize` (release-build semantics of
`infinite_loop_checker -= 1`); the arguments occurring in this development
are all below `2 ^ 64`. -/
def wrapDec (n : Nat) : Nat :=
  if n = 0 then 2 ^ 64 - 1 else n - 1

/-- The package identifier: `pub struct PackageId(pub String)`.  The direct
constructor stores the string unchanged; lowercasing happens only in the
serde deserialization path (`deserialize_package_id`). -/
structure PackageId where
  str : String
deriving DecidableEq, Repr

/-- The deserialization helper `deserialize_package_id`: forces the decoded
string to lowercase before it is stored in a `PackageId` (Rust
`str::to_lowercase`, modelled as the character-wise lowercase map). -/
def deserialize_package_id (s : String) : String :=
  String.mk (s.data.map Char.toLower)

/-- The four constraint kinds: `enum ModRelation`. -/
inductive ModRelation where
  | Before
  | After
  | Dependency
  | Incompatibility
deriving DecidableEq, Repr

/-- The rules one package declares: `struct ModRules`. -/
structure ModRules where
  start_anchor : Bool
  end_anchor : Bool
  rules : List (PackageId × ModRelation)
deriving DecidableEq, Repr

/-- Identifier of a rule source: `enum ModdbType` (paths stand in as strings). -/
inductive ModdbType where
  | ModBuiltRules
  | RuleFile (path : String)
deriving DecidableEq, Repr

/-- The rule database `ModRuleDb`: an ordered list of sources, each mapping
declaring packages to their rule sets. -/
abbrev ModRuleDb := List (ModdbType × List (PackageId × ModRules))

/-- The per-package issue map of the `ModListIssueCache`. -/
abbrev Issues := List (PackageId × ModRelation)

/-- The issue cache `ModListIssueCache`: declaring package to violated
relations. -/
abbrev IssueCache := List (PackageId × Issues)

/-- Position of a `PackageId` in a mod list, modelling
`IndexMap::get_index_of`. -/
def get_index_of (l : List PackageId) (k : PackageId) : Option Nat :=
  match l with
  | [] => none
  | x :: xs => if x = k then some 0 else (get_index_of xs k).map (· + 1)

/-- The inner issue map currently recorded for `a`, or the empty map:
`issue_cache.0.entry(a).or_default()` reads this value. -/
def getInner (c : IssueCache) (a : PackageId) : Issues :=
  (lookupA a c).getD []

/-- Writes back the inner issue map for `a` (creating the entry when absent),
completing an `entry(a).or_default()` access. -/
def cacheSet (c : IssueCache) (a : PackageId) (m : Issues) : IssueCache :=
  insertA a m c

/-- One iteration of the inner rule loop of `find_list_issues` for declarer
`a` at position `pa`: skips targets absent from the list, otherwise records
or removes an issue according to the relation kind. -/
def processRule (self : List PackageId) (a : PackageId) (pa : Nat)
    (c : IssueCache) (br : PackageId × ModRelation) : IssueCache :=
  match get_index_of self br.1 with
  | none => c
  | some pb =>
    match br.2 with
    | ModRelation.Before =>
        if pb < pa then cacheSet c a (insertA br.1 ModRelation.Before (getInner c a)) else c
    | ModRelation.After =>
        if pa < pb then cacheSet c a (insertA br.1 ModRelation.After (getInner c a)) else c
    | ModRelation.Dependency =>
        let c2 := cacheSet c a (removeA br.1 (getInner c a))
        if pa < pb then cacheSet c2 a (insertA br.1 ModRelation.After (getInner c2 a)) else c2
    | ModRelation.Incompatibility =>
        cacheSet c a (insertA br.1 ModRelation.Incompatibility (getInner c a))

/-- The `Dependency` entries of a rule set, pre-recorded as issues before the
positional pass. -/
def depList (rs : ModRules) : Issues :=
  rs.rules.filterMap (fun br => if br.2 = ModRelation.Dependency then some (br.1, ModRelation.Dependency) else none)

/-- Processing of one (declarer, rule set) pair present in the list:
pre-records all dependency targets as issues, then runs the positional pass
over every rule. -/
def processRuleset (self : List PackageId) (c : IssueCache) (a : PackageId)
    (rs : ModRules) (pa : Nat) : IssueCache :=
  let c1 := cacheSet c a ((depList rs).foldl (fun m br => insertA br.1 br.2 m) (getInner c a))
  rs.rules.foldl (processRule self a pa) c1

/-- Processing of one source entry: declarers absent from the list are
skipped. -/
def processEntry (self : List PackageId) (c : IssueCache)
    (e : PackageId × ModRules) : IssueCache :=
  match get_index_of self e.1 with
  | none => c
  | some pa => processRuleset self c e.1 e.2 pa

/-- Processing of one rule source. -/
def processSource (self : List PackageId) (c : IssueCache)
    (src : List (PackageId × ModRules)) : IssueCache :=
  src.foldl (processEntry self) c

/-- The violation detector `ModList::find_list_issues`: clears the cache,
processes every source of the database, and drops declarers whose issue set
ended up empty. -/
def find_list_issues (self : List PackageId) (db : ModRuleDb) : IssueCache :=
  (db.foldl (fun c s => processSource self c s.2) []).filter (fun e => !e.2.isEmpty)

/-- The issue recorded for the pair `(a, b)`: the content-level view of an
issue cache. -/
def cacheVal (c : IssueCache) (a b : PackageId) : Option ModRelation :=
  lookupA b (getInner c a)

-- Concrete package ids used by the concrete scenarios below.

/-- Package id `a`. -/
def pA : PackageId := ⟨"a"⟩

/-- Package id `b`. -/
def pB : PackageId := ⟨"b"⟩

/-- Package id `c`. -/
def pC : PackageId := ⟨"c"⟩

/-- A rule set with no anchors declaring exactly the given rules. -/
def mkRules (rules : List (PackageId × ModRelation)) : ModRules :=
  ⟨false, false, rules⟩

/-- Removal of a key from a mod list, preserving the order of the remaining
entries: `IndexMap::shift_remove`. -/
def shift_remove (l : List PackageId) (k : PackageId) : List PackageId :=
  match l with
  | [] => []
  | x :: xs => if x = k then xs else x :: shift_remove xs k

/-- The mutable state of the `autofix` loop: the two mod lists, the issue
cache, and the locals `movement_reverse_tracker`, `infinite_loop_checker`
and `index`. -/
structure LoopState where
  active : List PackageId
  inactive : List PackageId
  cache : IssueCache
  tracker : List ((PackageId × PackageId) × Bool)
  checker : Nat
  index : Nat
deriving DecidableEq, Repr

/-- Result of one iteration of the `autofix` loop body. -/
inductive StepRes where
  | ret (b : Bool) (s : LoopState)
  | panicked
  | next (s : LoopState)
deriving DecidableEq, Repr

/-- Overall result of `autofix` under a fuel bound. -/
inductive AutofixResult where
  | ok (b : Bool) (s : LoopState)
  | panic
  | fuelOut
deriving DecidableEq, Repr

/-- One iteration of the body of the `while !issue_cache.0.is_empty()` loop
of `ModList::autofix` (the emptiness test itself lives in `autofixLoop`).
Each `.unwrap()` of the source is modelled by a `panicked` outcome. -/
def autofixStep (db : ModRuleDb) (s : LoopState) : StepRes :=
  match getAt s.active s.index with
  | none => StepRes.panicked
  | some package_id =>
    match lookupA package_id s.cache with
    | some issues =>
      match issues.head? with
      | none => StepRes.panicked
      | some (problem_package_id, relation) =>
        if s.checker = 0 then StepRes.ret false s
        else
          match relation with
          | ModRelation.Before | ModRelation.After =>
            let flag := (lookupA (package_id, problem_package_id) s.tracker).getD false
            match get_index_of s.active package_id, get_index_of s.active problem_package_id with
            | some ip, some ipr =>
              let active2 := if flag then move_index s.active ip ipr else move_index s.active ipr ip
              StepRes.next { s with
                active := active2,
                tracker := insertA (package_id, problem_package_id) (!flag) s.tracker,
                cache := find_list_issues active2 db }
            | _, _ => StepRes.panicked
          | ModRelation.Dependency =>
            if problem_package_id ∈ s.inactive then
              let active2 :=
                if problem_package_id ∈ s.active then s.active else s.active ++ [problem_package_id]
              StepRes.next { s with
                active := active2,
                inactive := shift_remove s.inactive problem_package_id,
                cache := find_list_issues active2 db }
            else StepRes.ret false s
          | ModRelation.Incompatibility => StepRes.ret false s
    | none =>
      let index2 := if s.index + 1 ≥ s.active.length then 0 else s.index + 1
      StepRes.next { s with index := index2, checker := wrapDec s.checker }

/-- The `autofix` loop under a fuel bound counting loop iterations. -/
def autofixLoop (db : ModRuleDb) : Nat → LoopState → AutofixResult
  | 0, _ => AutofixResult.fuelOut
  | fuel + 1, s =>
    if s.cache = [] then AutofixResult.ok true s
    else
      match autofixStep db s with
      | StepRes.ret b s2 => AutofixResult.ok b s2
      | StepRes.panicked => AutofixResult.panic
      | StepRes.next s2 => autofixLoop db fuel s2

/-- `ModList::autofix`: initializes the retry budget, the movement tracker
and the scan index, then runs the repair loop. -/
def autofix (db : ModRuleDb) (active inactive : List PackageId)
    (issue_cache : IssueCache) (fuel : Nat) : AutofixResult :=
  autofixLoop db fuel
    { active := active, inactive := inactive, cache := issue_cache,
      tracker := [], checker := 100 + active.length + inactive.length, index := 0 }

/-- The three-cycle rule database `A: Before B, B: Before C, C: Before A`
used by the bounded-termination scenario of the specification. -/
def threeCycleDb : ModRuleDb :=
  [(ModdbType.ModBuiltRules,
    [(pA, mkRules [(pB, ModRelation.Before)]),
     (pB, mkRules [(pC, ModRelation.Before)]),
     (pC, mkRules [(pA, ModRelation.Before)])])]

/-- Issue cache holding the single issue `c -> a : Before`. -/
def cCA : IssueCache := [(pC, [(pA, ModRelation.Before)])]

/-- Issue cache holding the single issue `a -> b : Before`. -/
def cAB : IssueCache := [(pA, [(pB, ModRelation.Before)])]

/-- Issue cache holding the single issue `b -> c : Before`. -/
def cBC : IssueCache := [(pB, [(pC, ModRelation.Before)])]

/-- Movement tracker holding flags for the pairs `(c,a)`, `(a,b)`, `(b,c)`. -/
def trk (x y z : Bool) : List ((PackageId × PackageId) × Bool) :=
  [((pC, pA), x), ((pA, pB), y), ((pB, pC), z)]

/-- The state of the `autofix` loop on the three-cycle input after 5
iterations; from here the loop revisits the same six states forever. -/
def k0 : LoopState :=
  { active := [pA, pB, pC], inactive := [], cache := cCA, tracker := trk true true true,
    checker := 101, index := 2 }

/-- Second state of the recurring six-state cycle. -/
def k1 : LoopState :=
  { active := [pC, pA, pB], inactive := [], cache := cBC, tracker := trk false true true,
    checker := 101, index := 2 }

/-- Third state of the recurring six-state cycle. -/
def k2 : LoopState :=
  { active := [pB, pC, pA], inactive := [], cache := cAB, tracker := trk false true false,
    checker := 101, index := 2 }

/-- Fourth state of the recurring six-state cycle. -/
def k3 : LoopState :=
  { active := [pA, pB, pC], inactive := [], cache := cCA, tracker := trk false false false,
    checker := 101, index := 2 }

/-- Fifth state of the recurring six-state cycle. -/
def k4 : LoopState :=
  { active := [pB, pC, pA], inactive := [], cache := cAB, tracker := trk true false false,
    checker := 101, index := 2 }

/-- Sixth state of the recurring six-state cycle. -/
def k5 : LoopState :=
  { active := [pC, pA, pB], inactive := [], cache := cBC, tracker := trk true true false,
    checker := 101, index := 2 }

/-- Initial `autofix` state on the three-cycle input with all three packages
active and a freshly computed issue cache. -/
def threeCycleStart : LoopState :=
  { active := [pA, pB, pC], inactive := [],
    cache := find_list_issues [pA, pB, pC] threeCycleDb,
    tracker := [], checker := 103, index := 0 }

/-- First intermediate state (after one index advance). -/
def q1 : LoopState :=
  { active := [pA, pB, pC], inactive := [], cache := cCA, tracker := [],
    checker := 102, index := 1 }

/-- Second intermediate state (after two index advances). -/
def q2 : LoopState :=
  { active := [pA, pB, pC], inactive := [], cache := cCA, tracker := [],
    checker := 101, index := 2 }

/-- Third intermediate state (after the first repair). -/
def q3 : LoopState :=
  { active := [pB, pC, pA], inactive := [], cache := cAB,
    tracker := [((pC, pA), true)], checker := 101, index := 2 }

/-- Fourth intermediate state (after the second repair). -/
def q4 : LoopState :=
  { active := [pC, pA, pB], inactive := [], cache := cBC,
    tracker := [((pC, pA), true), ((pA, pB), true)], checker := 101, index := 2 }

/-- Database declaring only `A: Incompatible B`. -/
def incompatDb : ModRuleDb :=
  [(ModdbType.ModBuiltRules, [(pA, mkRules [(pB, ModRelation.Incompatibility)])])]

/-- Database declaring only `A: Before B`. -/
def beforeDb : ModRuleDb :=
  [(ModdbType.ModBuiltRules, [(pA, mkRules [(pB, ModRelation.Before)])])]

/-- Initial `autofix` loop state for `beforeDb` with active list `[B, A]`
and a fresh cache. -/
def w0 : LoopState :=
  { active := [pB, pA], inactive := [], cache := find_list_issues [pB, pA] beforeDb,
    tracker := [], checker := 102, index := 0 }

/-- State after the first loop iteration on `w0` (an index advance). -/
def w1 : LoopState :=
  { active := [pB, pA], inactive := [], cache := [(pA, [(pB, ModRelation.Before)])],
    tracker := [], checker := 101, index := 1 }

/-- State after the second loop iteration (the repair of `A -> B: Before`). -/
def w2 : LoopState :=
  { active := [pA, pB], inactive := [], cache := [],
    tracker := [((pA, pB), true)], checker := 101, index := 1 }

/-- C4 counterexample input: an issue cache that is stale with respect to an
empty active list. -/
def staleCache : IssueCache := [(pA, [(pB, ModRelation.Before)])]

/-- Two-source database: the first source declares `A: Incompatible B`, the
second `A: Dependency B`. -/
def twoSourceDb : ModRuleDb :=
  [(ModdbType.ModBuiltRules, [(pA, mkRules [(pB, ModRelation.Incompatibility)])]),
   (ModdbType.RuleFile "extra", [(pA, mkRules [(pB, ModRelation.Dependency)])])]

/-- Package id `d`. -/
def pD : PackageId := ⟨"d"⟩

/-- Package id `e`. -/
def pE : PackageId := ⟨"e"⟩

/-- Database with the mutual constraints `D: After E` and `E: After D`. -/
def mutualAfterDb : ModRuleDb :=
  [(ModdbType.ModBuiltRules,
    [(pD, mkRules [(pE, ModRelation.After)]),
     (pE, mkRules [(pD, ModRelation.After)])])]

/-- Initial `autofix` loop state for `mutualAfterDb`, active `[D, E]`, fresh
cache. -/
def u0 : LoopState :=
  { active := [pD, pE], inactive := [], cache := find_list_issues [pD, pE] mutualAfterDb,
    tracker := [], checker := 102, index := 0 }

/-- State after the first repair (`p = D`, target `= E`). -/
def u1 : LoopState :=
  { active := [pE, pD], inactive := [], cache := [(pE, [(pD, ModRelation.After)])],
    tracker := [((pD, pE), true)], checker := 102, index := 0 }

/-- State after the second repair (`p = E`, target `= D`). -/
def u2 : LoopState :=
  { active := [pD, pE], inactive := [], cache := [(pD, [(pE, ModRelation.After)])],
    tracker := [((pD, pE), true), ((pE, pD), true)], checker := 102, index := 0 }

/-- Boolean test of the claimed positional condition for one rule `br`
declared by `a`: constraints are only checked when both endpoints are
present in the list (`Before`: declarer earlier; `After`: declarer later;
`Dependency`: target earlier; `Incompatible`: never satisfied). -/
def ruleSatisfied (L : List PackageId) (a : PackageId)
    (br : PackageId × ModRelation) : Bool :=
  match get_index_of L a, get_index_of L br.1 with
  | some pa, some pb =>
    match br.2 with
    | ModRelation.Before => decide (pa < pb)
    | ModRelation.After => decide (pb < pa)
    | ModRelation.Dependency => decide (pb < pa)
    | ModRelation.Incompatibility => false
  | _, _ => true

/-- The hypothesis of the no-false-positives claim: every relation declared
by any source whose two endpoints are both present in `L` satisfies its
positional condition. -/
def positionalOk (L : List PackageId) (db : ModRuleDb) : Prop :=
  ∀ src ∈ db, ∀ e ∈ src.2, ∀ br ∈ e.2.rules, ruleSatisfied L e.1 br = true

instance (L : List PackageId) (db : ModRuleDb) : Decidable (positionalOk L db) := by
  unfold positionalOk
  exact inferInstance

/-- Database declaring only `A: Dependency C`. -/
def depDb : ModRuleDb :=
  [(ModdbType.ModBuiltRules, [(pA, mkRules [(pC, ModRelation.Dependency)])])]

/-- The effect of one rule `br` of a present declarer (at position `pa`) on
the issue recorded for target `b`: the content-level counterpart of
`processRule`. -/
def ruleEffect (self : List PackageId) (pa : Nat) (b : PackageId)
    (br : PackageId × ModRelation) (cur : Option ModRelation) : Option ModRelation :=
  if br.1 = b then
    match get_index_of self b with
    | none => cur
    | some pb =>
      match br.2 with
      | ModRelation.Before => if pb < pa then some ModRelation.Before else cur
      | ModRelation.After => if pa < pb then some ModRelation.After else cur
      | ModRelation.Dependency => if pa < pb then some ModRelation.After else none
      | ModRelation.Incompatibility => some ModRelation.Incompatibility
  else cur

/-- The effect of one whole rule set of a present declarer on the issue
recorded for target `b`: the dependency pre-record followed by the
positional pass. -/
def rulesetEffect (self : List PackageId) (b : PackageId) (pa : Nat)
    (rs : ModRules) (cur : Option ModRelation) : Option ModRelation :=
  let cur1 := if (depList rs).any (fun br => decide (br.1 = b)) then some ModRelation.Dependency else cur
  rs.rules.foldl (fun o br => ruleEffect self pa b br o) cur1

/-- The effect of one source entry on the issue recorded for `(a, b)`:
entries of other declarers, or of an absent `a`, leave it unchanged. -/
def entryEffect (self : List PackageId) (a b : PackageId)
    (e : PackageId × ModRules) (cur : Option ModRelation) : Option ModRelation :=
  if e.1 = a then
    match get_index_of self a with
    | none => cur
    | some pa => rulesetEffect self b pa e.2 cur
  else cur

/-- The issue `find_list_issues` ends up recording for the pair `(a, b)`:
the composition of the effects of every source entry, in database order. -/
def issueFor (self : List PackageId) (db : ModRuleDb) (a b : PackageId) : Option ModRelation :=
  db.foldl (fun cur s => s.2.foldl (fun cur e => entryEffect self a b e cur) cur) none

/-- Every inner issue map of the cache has pairwise-distinct keys. -/
def InnerOk (c : IssueCache) : Prop :=
  ∀ e ∈ c, NodupKeys e.2

/-- Shape of a recorded issue for target `b`: ordering and incompatibility
issues only exist for present targets, dependency issues only for absent
ones. -/
def shapeOk (self : List PackageId) (b : PackageId) : Option ModRelation → Prop
  | none => True
  | some ModRelation.Dependency => get_index_of self b = none
  | some _ => get_index_of self b ≠ none

/-- Every declarer recorded in the cache is present in the list. -/
def KeysOk (self : List PackageId) (c : IssueCache) : Prop :=
  ∀ e ∈ c, get_index_of self e.1 ≠ none

/-- Boolean test that a `Dependency` rule of a present declarer has its
target present in the list (the side condition the no-false-positives claim
is missing). -/
def depRuleOk (L : List PackageId) (a : PackageId)
    (br : PackageId × ModRelation) : Bool :=
  match get_index_of L a, br.2 with
  | some _, ModRelation.Dependency => (get_index_of L br.1).isSome
  | _, _ => true

/-- Every `Dependency` relation declared by a present package has its target
present in the list. -/
def depTargetsPresent (L : List PackageId) (db : ModRuleDb) : Prop :=
  ∀ src ∈ db, ∀ e ∈ src.2, ∀ br ∈ e.2.rules, depRuleOk L e.1 br = true

instance (L : List PackageId) (db : ModRuleDb) : Decidable (depTargetsPresent L db) := by
  unfold depTargetsPresent
  exact inferInstance

/-- The relations the entry `e` declares from `a` toward `b`. -/
def entryRels (a b : PackageId) (e : PackageId × ModRules) : List ModRelation :=
  if e.1 = a then (e.2.rules.filter (fun br => decide (br.1 = b))).map Prod.snd else []

/-- The relations one source declares from `a` toward `b`. -/
def srcRels (a b : PackageId) (src : List (PackageId × ModRules)) : List ModRelation :=
  src.foldl (fun acc e => acc ++ entryRels a b e) []

/-- All relations the database declares from `a` toward `b`, in processing
order. -/
def relsFor (db : ModRuleDb) (a b : PackageId) : List ModRelation :=
  db.foldl (fun acc s => acc ++ srcRels a b s.2) []

/-- The issue a single relation `r` declared from `a` toward `b` (and by
nothing else for that pair) produces in the cache: `Before`/`After` produce
themselves when the positional condition fails, a `Dependency` is a hard
issue for an absent target and degrades to `After` for a present one, and
`Incompatibility` always fires when both are present. -/
def singleRelEffect (L : List PackageId) (a b : PackageId) (r : ModRelation) :
    Option ModRelation :=
  match get_index_of L a with
  | none => none
  | some pa =>
    match r, get_index_of L b with
    | ModRelation.Dependency, none => some ModRelation.Dependency
    | ModRelation.Dependency, some pb =>
        if pa < pb then some ModRelation.After else none
    | ModRelation.Before, some pb =>
        if pb < pa then some ModRelation.Before else none
    | ModRelation.After, some pb =>
        if pa < pb then some ModRelation.After else none
    | ModRelation.Incompatibility, some _ => some ModRelation.Incompatibility
    | _, none => none

/-- The issue a lone rule `(b, r)` inside a rule set produces for the pair,
as a function of `r` and the target position. -/
def relStepNone (L : List PackageId) (b : PackageId) (pa : Nat)
    (r : ModRelation) : Option ModRelation :=
  match r, get_index_of L b with
  | ModRelation.Dependency, none => some ModRelation.Dependency
  | ModRelation.Dependency, some pb => if pa < pb then some ModRelation.After else none
  | ModRelation.Before, some pb => if pb < pa then some ModRelation.Before else none
  | ModRelation.After, some pb => if pa < pb then some ModRelation.After else none
  | ModRelation.Incompatibility, some _ => some ModRelation.Incompatibility
  | _, none => none

/-- Unfolding of one non-final loop iteration. -/
theorem autofixLoop_next {db : ModRuleDb} {s s2 : LoopState} {n : Nat}
    (hne : ¬ s.cache = []) (hstep : autofixStep db s = StepRes.next s2) :
    autofixLoop db (n + 1) s = autofixLoop db n s2 := by
  simp [autofixLoop, hne, hstep]

/-- On the three-cycle input, each of the six recurring states steps to the
next one (indices mod 6), with the retry budget untouched. -/
theorem threeCycle_steps :
    autofixStep threeCycleDb k0 = StepRes.next k1 ∧
    autofixStep threeCycleDb k1 = StepRes.next k2 ∧
    autofixStep threeCycleDb k2 = StepRes.next k3 ∧
    autofixStep threeCycleDb k3 = StepRes.next k4 ∧
    autofixStep threeCycleDb k4 = StepRes.next k5 ∧
    autofixStep threeCycleDb k5 = StepRes.next k0 := by
  refine ⟨?_, ?_, ?_, ?_, ?_, ?_⟩ <;> decide

/-- Whatever amount of fuel is granted, the loop started in any of the six
recurring states is still running when the fuel runs out. -/
theorem threeCycle_fuelOut : ∀ n : Nat,
    autofixLoop threeCycleDb n k0 = AutofixResult.fuelOut ∧
    autofixLoop threeCycleDb n k1 = AutofixResult.fuelOut ∧
    autofixLoop threeCycleDb n k2 = AutofixResult.fuelOut ∧
    autofixLoop threeCycleDb n k3 = AutofixResult.fuelOut ∧
    autofixLoop threeCycleDb n k4 = AutofixResult.fuelOut ∧
    autofixLoop threeCycleDb n k5 = AutofixResult.fuelOut := by
  intro n
  induction n with
  | zero => exact ⟨rfl, rfl, rfl, rfl, rfl, rfl⟩
  | succ m ih =>
    obtain ⟨h0, h1, h2, h3, h4, h5⟩ := ih
    obtain ⟨s0, s1, s2, s3, s4, s5⟩ := threeCycle_steps
    refine ⟨?_, ?_, ?_, ?_, ?_, ?_⟩
    · rw [autofixLoop_next (by decide) s0]; exact h1
    · rw [autofixLoop_next (by decide) s1]; exact h2
    · rw [autofixLoop_next (by decide) s2]; exact h3
    · rw [autofixLoop_next (by decide) s3]; exact h4
    · rw [autofixLoop_next (by decide) s4]; exact h5
    · rw [autofixLoop_next (by decide) s5]; exact h0

/-- The five loop iterations leading from the initial three-cycle state into
the recurring six-state cycle. -/
theorem threeCycle_prelude :
    autofixStep threeCycleDb threeCycleStart = StepRes.next q1 ∧
    autofixStep threeCycleDb q1 = StepRes.next q2 ∧
    autofixStep threeCycleDb q2 = StepRes.next q3 ∧
    autofixStep threeCycleDb q3 = StepRes.next q4 ∧
    autofixStep threeCycleDb q4 = StepRes.next k0 := by
  refine ⟨?_, ?_, ?_, ?_, ?_⟩ <;> decide

/-- C1.  The claim asserts that `autofix` always terminates within the retry
budget `100 + |active| + |inactive|`, and in particular terminates and
returns `false` on the three-cycle `A: Before B, B: Before C, C: Before A`
with all three packages active and a fresh issue cache.  The code violates
this: on that input the loop revisits the same six states forever (the
budget is decremented only on the branch that advances the index past an
issue-free package, and after the first two advances every subsequent
iteration finds an issue, so the budget check never fires again).  For every
fuel bound the loop is still running, i.e. `autofix` hangs. -/
theorem autofix_three_cycle_never_terminates (n : Nat) :
    autofix threeCycleDb [pA, pB, pC] []
      (find_list_issues [pA, pB, pC] threeCycleDb) n = AutofixResult.fuelOut := by
  have hinit : autofix threeCycleDb [pA, pB, pC] []
      (find_list_issues [pA, pB, pC] threeCycleDb) n = autofixLoop threeCycleDb n threeCycleStart := rfl
  rw [hinit]
  obtain ⟨hq1, hq2, hq3, hq4, hq5⟩ := threeCycle_prelude
  match n with
  | 0 => rfl
  | 1 => decide
  | 2 => decide
  | 3 => decide
  | 4 => decide
  | (m + 5) =>
    rw [autofixLoop_next (by decide) hq1, autofixLoop_next (by decide) hq2,
      autofixLoop_next (by decide) hq3, autofixLoop_next (by decide) hq4,
      autofixLoop_next (by decide) hq5]
    exact (threeCycle_fuelOut m).1

/-- C9.  With the single relation `A: Incompatible B`, both packages active
and a freshly computed issue cache, `autofix` returns `false` and leaves the
lists and the cache untouched: the incompatibility entry is still in the
cache afterwards. -/
theorem autofix_incompatibility_returns_false :
    find_list_issues [pA, pB] incompatDb = [(pA, [(pB, ModRelation.Incompatibility)])] ∧
    autofix incompatDb [pA, pB] [] (find_list_issues [pA, pB] incompatDb) 5 =
      AutofixResult.ok false
        { active := [pA, pB], inactive := [],
          cache := [(pA, [(pB, ModRelation.Incompatibility)])],
          tracker := [], checker := 102, index := 0 } ∧
    cacheVal [(pA, [(pB, ModRelation.Incompatibility)])] pA pB = some ModRelation.Incompatibility := by
  refine ⟨by decide, by decide, by decide⟩

/-- C5.  The claim (and §4.3 of the specification) says the retry budget is
decremented exactly on the branch where an issue is found for the package at
the current index, and that advancing past a package with no cache entry
does not consume the budget.  The code does the opposite, observed here on a
concrete run: the first iteration finds no cache entry for the package at
index 0 and yet decrements the budget (102 to 101), while the second
iteration repairs an issue without consuming any budget (101 to 101).  Only
the zero test happens on the issue branch.  This inversion is what lets the
repair loop of `autofix_three_cycle_never_terminates` run forever. -/
theorem autofix_budget_decrement_on_advance :
    lookupA pB w0.cache = none ∧
    autofixStep beforeDb w0 = StepRes.next w1 ∧
    w0.checker = 102 ∧ w1.checker = 101 ∧
    lookupA pA w1.cache = some [(pB, ModRelation.Before)] ∧
    autofixStep beforeDb w1 = StepRes.next w2 ∧
    w2.checker = 101 := by
  refine ⟨by decide, by decide, by decide, by decide, by decide, by decide, by decide⟩

/-- The `autofix` call on an empty active list with a stale, nonempty issue
cache panics: `self.0.get_index(index).unwrap()` fails. -/
theorem autofix_stale_cache_panics :
    autofix [] [] [] staleCache 1 = AutofixResult.panic := by decide

/-- C3 counterexample.  The first source's `A: Incompatible B` is violated
(both packages are present), so by the claim the cache must contain the
incompatibility issue for `(A, B)` no matter what other sources declare.
But the second source's `Dependency` handling removes the pair's entry
outright: the returned cache is empty.  One source's declaration suppressed
the effect of another source's declaration on the outcome. -/
theorem union_source_suppression_cex :
    (pB, ModRelation.Incompatibility) ∈ (mkRules [(pB, ModRelation.Incompatibility)]).rules ∧
    get_index_of [pB, pA] pA = some 1 ∧ get_index_of [pB, pA] pB = some 0 ∧
    find_list_issues [pB, pA] twoSourceDb = [] := by
  refine ⟨by decide, by decide, by decide, by decide⟩

/-- C6 counterexample.  The claim says the toggle flag is keyed by the
unordered pair `(p, target)` and is therefore shared between encounters in
either orientation, being flipped on each repair.  On this run the first
repair is between `p = D` and target `E`, the second between `p = E` and
target `D` — the same unordered pair, so under the claim the second repair
would read the shared flag as `true` and flip it back to `false`, leaving
one flag `false` after the two repairs.  The code instead keys the tracker
by the ordered pair: the second encounter finds no entry for `(E, D)` (the
lookup below returns `none` although `(D, E)` is present and `true`),
initializes an independent flag, and the run ends with two flags, both
`true`. -/
theorem toggle_ordered_pair_cex :
    autofixStep mutualAfterDb u0 = StepRes.next u1 ∧
    u1.tracker = [((pD, pE), true)] ∧
    lookupA (pE, pD) u1.tracker = none ∧
    autofixStep mutualAfterDb u1 = StepRes.next u2 ∧
    u2.tracker = [((pD, pE), true), ((pE, pD), true)] := by
  refine ⟨by decide, by decide, by decide, by decide, by decide⟩

/-- C7 counterexample.  The claim asserts every `PackageId` is case-folded
at construction time, making identifiers built from strings that differ
only in case equal.  The constructor `PackageId(String)` stores the string
unchanged (lowercasing happens only in `deserialize_package_id`), and the
code constructs `PackageId("ludeon.rimworld".to_owned())` directly
(`ui.rs:343`): identifiers built directly from `"A"` and `"a"` differ. -/
theorem packageid_direct_case_cex :
    "A".data.map Char.toLower = "a".data.map Char.toLower ∧
    PackageId.mk "A" ≠ PackageId.mk "a" := by
  refine ⟨by decide, by decide⟩

/-- C7 amended.  Identifiers that pass through the deserialization path are
case-folded to lowercase by `deserialize_package_id`, so deserialized
identifiers built from strings that agree up to case are equal (and hence
hash and order identically). -/
theorem deserialized_ids_case_insensitive (s t : String)
    (h : s.data.map Char.toLower = t.data.map Char.toLower) :
    PackageId.mk (deserialize_package_id s) = PackageId.mk (deserialize_package_id t) := by
  unfold deserialize_package_id
  exact congrArg (fun l => PackageId.mk (String.mk l)) h

/-- Witness for `deserialized_ids_case_insensitive` at `s = "AbC"`,
`t = "aBc"`. -/
theorem deserialized_ids_case_insensitive_witness :
    "AbC".data.map Char.toLower = "aBc".data.map Char.toLower ∧
    PackageId.mk (deserialize_package_id "AbC") = PackageId.mk (deserialize_package_id "aBc") := by
  exact ⟨by decide, deserialized_ids_case_insensitive "AbC" "aBc" (by decide)⟩

/-- C2 counterexample.  With `A: Dependency C` and the list `[A]`, the
claim's hypothesis holds vacuously (no relation has both endpoints present),
yet the detector's cache is not empty: the dependency on the absent `C` is
reported.  The claim misses the side condition that dependency targets of
present declarers must themselves be present. -/
theorem no_false_positives_cex :
    positionalOk [pA] depDb ∧ find_list_issues [pA] depDb ≠ [] := by
  refine ⟨by decide, by decide⟩

theorem lookupA_insertA_self {κ α : Type} [DecidableEq κ] (k : κ) (v : α)
    (l : List (κ × α)) : lookupA k (insertA k v l) = some v := by
  induction l with
  | nil => simp [insertA, lookupA]
  | cons hd tl ih =>
    obtain ⟨k', v'⟩ := hd
    by_cases h : k = k'
    · simp [insertA, lookupA, h]
    · simp [insertA, lookupA, h, ih]

theorem lookupA_insertA_ne {κ α : Type} [DecidableEq κ] {k k' : κ} (v : α)
    (l : List (κ × α)) (h : k ≠ k') : lookupA k (insertA k' v l) = lookupA k l := by
  induction l with
  | nil => simp [insertA, lookupA, h]
  | cons hd tl ih =>
    obtain ⟨k2, v2⟩ := hd
    by_cases h2 : k' = k2
    · subst h2
      simp [insertA, lookupA, h]
    · by_cases h3 : k = k2 <;> simp [insertA, lookupA, h2, h3, ih]

theorem lookupA_removeA_ne {κ α : Type} [DecidableEq κ] {k k' : κ}
    (l : List (κ × α)) (h : k ≠ k') : lookupA k (removeA k' l) = lookupA k l := by
  induction l with
  | nil => simp [removeA]
  | cons hd tl ih =>
    obtain ⟨k2, v2⟩ := hd
    by_cases h2 : k' = k2
    · subst h2
      simp [removeA, lookupA, h]
    · by_cases h3 : k = k2 <;> simp [removeA, lookupA, h2, h3, ih]

theorem lookupA_eq_none_of_not_mem_keys {κ α : Type} [DecidableEq κ] {k : κ}
    {l : List (κ × α)} (h : k ∉ l.map Prod.fst) : lookupA k l = none := by
  induction l with
  | nil => rfl
  | cons hd tl ih =>
    simp only [List.map_cons, List.mem_cons] at h
    push_neg at h
    simpa [lookupA, h.1] using ih h.2

theorem lookupA_removeA_self {κ α : Type} [DecidableEq κ] (k : κ)
    {l : List (κ × α)} (h : NodupKeys l) : lookupA k (removeA k l) = none := by
  induction l with
  | nil => rfl
  | cons hd tl ih =>
    obtain ⟨k2, v2⟩ := hd
    simp only [NodupKeys, List.map_cons, List.nodup_cons] at h
    by_cases h2 : k = k2
    · subst h2
      simpa [removeA] using lookupA_eq_none_of_not_mem_keys h.1
    · simpa [removeA, lookupA, h2] using ih h.2

theorem mem_keys_insertA {κ α : Type} [DecidableEq κ] {x k : κ} (v : α)
    {l : List (κ × α)} (h : x ∈ (insertA k v l).map Prod.fst) :
    x = k ∨ x ∈ l.map Prod.fst := by
  induction l with
  | nil => simpa [insertA] using h
  | cons hd tl ih =>
    obtain ⟨k2, v2⟩ := hd
    by_cases h2 : k = k2
    · subst h2
      simpa [insertA] using h
    · simp only [insertA, if_neg h2, List.map_cons, List.mem_cons] at h
      rcases h with h | h
      · exact Or.inr (by simp [h])
      · rcases ih h with h | h
        · exact Or.inl h
        · exact Or.inr (by simp [h])

theorem NodupKeys_insertA {κ α : Type} [DecidableEq κ] (k : κ) (v : α)
    {l : List (κ × α)} (h : NodupKeys l) : NodupKeys (insertA k v l) := by
  induction l with
  | nil => simp [insertA, NodupKeys]
  | cons hd tl ih =>
    obtain ⟨k2, v2⟩ := hd
    simp only [NodupKeys, List.map_cons, List.nodup_cons] at h
    by_cases h2 : k = k2
    · subst h2
      simpa [insertA, NodupKeys] using h
    · have htl := ih h.2
      simp only [insertA, if_neg h2, NodupKeys, List.map_cons, List.nodup_cons]
      refine ⟨fun hx => ?_, htl⟩
      rcases mem_keys_insertA v hx with hx | hx
      · exact h2 (hx.symm)
      · exact h.1 hx

theorem mem_removeA {κ α : Type} [DecidableEq κ] {e : κ × α} {k : κ}
    {l : List (κ × α)} (h : e ∈ removeA k l) : e ∈ l := by
  induction l with
  | nil => simp [removeA] at h
  | cons hd tl ih =>
    obtain ⟨k2, v2⟩ := hd
    by_cases h2 : k = k2
    · rw [show removeA k ((k2, v2) :: tl) = tl from by simp [removeA, h2]] at h
      exact List.mem_cons_of_mem _ h
    · rw [show removeA k ((k2, v2) :: tl) = (k2, v2) :: removeA k tl from by
        simp [removeA, h2]] at h
      rcases List.mem_cons.mp h with h | h
      · exact h ▸ List.mem_cons_self _ _
      · exact List.mem_cons_of_mem _ (ih h)

theorem mem_keys_removeA {κ α : Type} [DecidableEq κ] {x k : κ}
    {l : List (κ × α)} (h : x ∈ (removeA k l).map Prod.fst) : x ∈ l.map Prod.fst := by
  rcases List.mem_map.mp h with ⟨e, he, hx⟩
  exact hx ▸ List.mem_map_of_mem Prod.fst (mem_removeA he)

theorem NodupKeys_removeA {κ α : Type} [DecidableEq κ] (k : κ)
    {l : List (κ × α)} (h : NodupKeys l) : NodupKeys (removeA k l) := by
  induction l with
  | nil => simpa [removeA] using h
  | cons hd tl ih =>
    obtain ⟨k2, v2⟩ := hd
    simp only [NodupKeys, List.map_cons, List.nodup_cons] at h
    by_cases h2 : k = k2
    · subst h2
      simpa [removeA] using h.2
    · simp only [removeA, if_neg h2, NodupKeys, List.map_cons, List.nodup_cons]
      exact ⟨fun hx => h.1 (mem_keys_removeA hx), ih h.2⟩

theorem lookupA_mem {κ α : Type} [DecidableEq κ] {k : κ} {v : α}
    {l : List (κ × α)} (h : lookupA k l = some v) : (k, v) ∈ l := by
  induction l with
  | nil => simp [lookupA] at h
  | cons hd tl ih =>
    obtain ⟨k2, v2⟩ := hd
    by_cases h2 : k = k2
    · rw [show lookupA k ((k2, v2) :: tl) = some v2 from by simp [lookupA, h2]] at h
      obtain rfl : v2 = v := by injection h
      exact h2 ▸ List.mem_cons_self _ _
    · rw [show lookupA k ((k2, v2) :: tl) = lookupA k tl from by simp [lookupA, h2]] at h
      exact List.mem_cons_of_mem _ (ih h)

theorem mem_lookupA {κ α : Type} [DecidableEq κ] {k : κ} {v : α}
    {l : List (κ × α)} (hnd : NodupKeys l) (h : (k, v) ∈ l) : lookupA k l = some v := by
  induction l with
  | nil => simp at h
  | cons hd tl ih =>
    obtain ⟨k2, v2⟩ := hd
    simp only [NodupKeys, List.map_cons, List.nodup_cons] at hnd
    rcases List.mem_cons.mp h with hh | hh
    · injection hh with e1 e2
      subst e1
      subst e2
      simp [lookupA]
    · have hk : k ≠ k2 := by
        rintro rfl
        exact hnd.1 (List.mem_map_of_mem Prod.fst hh)
      simp [lookupA, hk, ih hnd.2 hh]

theorem mem_insertA {κ α : Type} [DecidableEq κ] {e : κ × α} {k : κ} {v : α}
    {l : List (κ × α)} (h : e ∈ insertA k v l) : e = (k, v) ∨ e ∈ l := by
  induction l with
  | nil => simpa [insertA] using h
  | cons hd tl ih =>
    obtain ⟨k2, v2⟩ := hd
    by_cases h2 : k = k2
    · rw [show insertA k v ((k2, v2) :: tl) = (k, v) :: tl from by simp [insertA, h2]] at h
      rcases List.mem_cons.mp h with h | h
      · exact Or.inl h
      · exact Or.inr (List.mem_cons_of_mem _ h)
    · rw [show insertA k v ((k2, v2) :: tl) = (k2, v2) :: insertA k v tl from by
        simp [insertA, h2]] at h
      rcases List.mem_cons.mp h with h | h
      · exact Or.inr (by simp [h])
      · rcases ih h with h | h
        · exact Or.inl h
        · exact Or.inr (List.mem_cons_of_mem _ h)

theorem getInner_nodup {c : IssueCache} (h : InnerOk c) (a : PackageId) :
    NodupKeys (getInner c a) := by
  unfold getInner
  cases hl : lookupA a c with
  | none => simp [NodupKeys]
  | some m => exact h _ (lookupA_mem hl)

theorem cacheVal_cacheSet_self (c : IssueCache) (a b : PackageId) (m : Issues) :
    cacheVal (cacheSet c a m) a b = lookupA b m := by
  unfold cacheVal cacheSet getInner
  rw [lookupA_insertA_self]
  rfl

theorem cacheVal_cacheSet_ne (c : IssueCache) {x a : PackageId} (b : PackageId)
    (m : Issues) (h : x ≠ a) : cacheVal (cacheSet c a m) x b = cacheVal c x b := by
  unfold cacheVal cacheSet getInner
  rw [lookupA_insertA_ne _ _ h]

theorem InnerOk_cacheSet {c : IssueCache} (a : PackageId) {m : Issues}
    (hc : InnerOk c) (hm : NodupKeys m) : InnerOk (cacheSet c a m) := by
  intro e he
  rcases mem_insertA he with rfl | he
  · exact hm
  · exact hc _ he

theorem getInner_cacheSet_self (c : IssueCache) (a : PackageId) (m : Issues) :
    getInner (cacheSet c a m) a = m := by
  unfold getInner cacheSet
  rw [lookupA_insertA_self]
  rfl

theorem InnerOk_processRule (self : List PackageId) (a : PackageId) (pa : Nat)
    {c : IssueCache} (bt : PackageId) (r : ModRelation) (hc : InnerOk c) :
    InnerOk (processRule self a pa c (bt, r)) := by
  have hin := getInner_nodup hc a
  unfold processRule
  cases hpos : get_index_of self bt with
  | none => exact hc
  | some pb =>
    cases r with
    | Before =>
      dsimp only
      by_cases hlt : pb < pa
      · rw [if_pos hlt]
        exact InnerOk_cacheSet a hc (NodupKeys_insertA _ _ hin)
      · rw [if_neg hlt]
        exact hc
    | After =>
      dsimp only
      by_cases hlt : pa < pb
      · rw [if_pos hlt]
        exact InnerOk_cacheSet a hc (NodupKeys_insertA _ _ hin)
      · rw [if_neg hlt]
        exact hc
    | Dependency =>
      dsimp only
      have h2 : InnerOk (cacheSet c a (removeA bt (getInner c a))) :=
        InnerOk_cacheSet a hc (NodupKeys_removeA _ hin)
      by_cases hlt : pa < pb
      · rw [if_pos hlt]
        exact InnerOk_cacheSet a h2 (NodupKeys_insertA _ _ (getInner_nodup h2 a))
      · rw [if_neg hlt]
        exact h2
    | Incompatibility =>
      exact InnerOk_cacheSet a hc (NodupKeys_insertA _ _ hin)

theorem cacheVal_processRule (self : List PackageId) (a b : PackageId) (pa : Nat)
    {c : IssueCache} (bt : PackageId) (r : ModRelation) (hc : InnerOk c) :
    cacheVal (processRule self a pa c (bt, r)) a b
      = ruleEffect self pa b (bt, r) (cacheVal c a b) := by
  have hin := getInner_nodup hc a
  by_cases hb : bt = b
  · subst hb
    unfold processRule ruleEffect
    dsimp only
    rw [if_pos rfl]
    cases hpos : get_index_of self bt with
    | none => rfl
    | some pb =>
      cases r with
      | Before =>
        dsimp only
        by_cases hlt : pb < pa
        · rw [if_pos hlt, if_pos hlt, cacheVal_cacheSet_self, lookupA_insertA_self]
        · rw [if_neg hlt, if_neg hlt]
      | After =>
        dsimp only
        by_cases hlt : pa < pb
        · rw [if_pos hlt, if_pos hlt, cacheVal_cacheSet_self, lookupA_insertA_self]
        · rw [if_neg hlt, if_neg hlt]
      | Dependency =>
        dsimp only
        by_cases hlt : pa < pb
        · rw [if_pos hlt, if_pos hlt, cacheVal_cacheSet_self, lookupA_insertA_self]
        · rw [if_neg hlt, if_neg hlt, cacheVal_cacheSet_self]
          exact lookupA_removeA_self _ hin
      | Incompatibility =>
        dsimp only
        rw [cacheVal_cacheSet_self, lookupA_insertA_self]
  · have hb2 : b ≠ bt := Ne.symm hb
    unfold processRule ruleEffect
    dsimp only
    rw [if_neg hb]
    cases hpos : get_index_of self bt with
    | none => rfl
    | some pb =>
      cases r with
      | Before =>
        dsimp only
        by_cases hlt : pb < pa
        · rw [if_pos hlt, cacheVal_cacheSet_self, lookupA_insertA_ne _ _ hb2]
          rfl
        · rw [if_neg hlt]
      | After =>
        dsimp only
        by_cases hlt : pa < pb
        · rw [if_pos hlt, cacheVal_cacheSet_self, lookupA_insertA_ne _ _ hb2]
          rfl
        · rw [if_neg hlt]
      | Dependency =>
        dsimp only
        by_cases hlt : pa < pb
        · rw [if_pos hlt, cacheVal_cacheSet_self, lookupA_insertA_ne _ _ hb2,
            getInner_cacheSet_self, lookupA_removeA_ne _ hb2]
          rfl
        · rw [if_neg hlt, cacheVal_cacheSet_self, lookupA_removeA_ne _ hb2]
          rfl
      | Incompatibility =>
        dsimp only
        rw [cacheVal_cacheSet_self, lookupA_insertA_ne _ _ hb2]
        rfl

theorem cacheVal_processRule_frame (self : List PackageId) {x a : PackageId}
    (b : PackageId) (pa : Nat) (c : IssueCache) (br : PackageId × ModRelation)
    (hx : x ≠ a) :
    cacheVal (processRule self a pa c br) x b = cacheVal c x b := by
  obtain ⟨bt, r⟩ := br
  unfold processRule
  cases hpos : get_index_of self bt with
  | none => rfl
  | some pb =>
    cases r with
    | Before =>
      dsimp only
      by_cases hlt : pb < pa
      · rw [if_pos hlt, cacheVal_cacheSet_ne _ _ _ hx]
      · rw [if_neg hlt]
    | After =>
      dsimp only
      by_cases hlt : pa < pb
      · rw [if_pos hlt, cacheVal_cacheSet_ne _ _ _ hx]
      · rw [if_neg hlt]
    | Dependency =>
      dsimp only
      by_cases hlt : pa < pb
      · rw [if_pos hlt, cacheVal_cacheSet_ne _ _ _ hx, cacheVal_cacheSet_ne _ _ _ hx]
      · rw [if_neg hlt, cacheVal_cacheSet_ne _ _ _ hx]
    | Incompatibility =>
      dsimp only
      rw [cacheVal_cacheSet_ne _ _ _ hx]

theorem lookupA_depFold (b : PackageId) (kvs : Issues)
    (hdep : ∀ br ∈ kvs, br.2 = ModRelation.Dependency) (m : Issues) :
    lookupA b (kvs.foldl (fun m br => insertA br.1 br.2 m) m)
      = if kvs.any (fun br => decide (br.1 = b)) then some ModRelation.Dependency
        else lookupA b m := by
  induction kvs generalizing m with
  | nil => rfl
  | cons hd tl ih =>
    obtain ⟨bt, r⟩ := hd
    have hr : r = ModRelation.Dependency := hdep (bt, r) (List.mem_cons_self _ _)
    subst hr
    have htl : ∀ br ∈ tl, br.2 = ModRelation.Dependency :=
      fun br hbr => hdep br (List.mem_cons_of_mem _ hbr)
    rw [List.foldl_cons, ih htl]
    by_cases hb : bt = b
    · subst hb
      by_cases hany : tl.any (fun br => decide (br.1 = bt))
      · simp [hany, lookupA_insertA_self]
      · simp [hany, lookupA_insertA_self]
    · have hb2 : b ≠ bt := Ne.symm hb
      by_cases hany : tl.any (fun br => decide (br.1 = b))
      · simp [hany, hb]
      · simp [hany, hb, lookupA_insertA_ne _ _ hb2]

theorem NodupKeys_depFold (kvs : Issues) {m : Issues} (hm : NodupKeys m) :
    NodupKeys (kvs.foldl (fun m br => insertA br.1 br.2 m) m) := by
  induction kvs generalizing m with
  | nil => exact hm
  | cons hd tl ih =>
    rw [List.foldl_cons]
    exact ih (NodupKeys_insertA _ _ hm)

theorem depList_all_dep (rs : ModRules) :
    ∀ br ∈ depList rs, br.2 = ModRelation.Dependency := by
  intro br hbr
  unfold depList at hbr
  rcases List.mem_filterMap.mp hbr with ⟨orig, _, hf⟩
  by_cases hdep : orig.2 = ModRelation.Dependency
  · rw [if_pos hdep] at hf
    injection hf with hf
    rw [← hf]
  · rw [if_neg hdep] at hf
    exact absurd hf (by simp)

theorem InnerOk_foldRules (self : List PackageId) (a : PackageId) (pa : Nat)
    (l : List (PackageId × ModRelation)) {c : IssueCache} (hc : InnerOk c) :
    InnerOk (l.foldl (processRule self a pa) c) := by
  induction l generalizing c with
  | nil => exact hc
  | cons hd tl ih =>
    obtain ⟨bt, r⟩ := hd
    rw [List.foldl_cons]
    exact ih (InnerOk_processRule self a pa bt r hc)

theorem cacheVal_foldRules (self : List PackageId) (a b : PackageId) (pa : Nat)
    (l : List (PackageId × ModRelation)) {c : IssueCache} (hc : InnerOk c) :
    cacheVal (l.foldl (processRule self a pa) c) a b
      = l.foldl (fun o br => ruleEffect self pa b br o) (cacheVal c a b) := by
  induction l generalizing c with
  | nil => rfl
  | cons hd tl ih =>
    obtain ⟨bt, r⟩ := hd
    rw [List.foldl_cons, List.foldl_cons, ih (InnerOk_processRule self a pa bt r hc),
      cacheVal_processRule self a b pa bt r hc]

theorem cacheVal_foldRules_frame (self : List PackageId) {x a : PackageId}
    (b : PackageId) (pa : Nat) (l : List (PackageId × ModRelation))
    (c : IssueCache) (hx : x ≠ a) :
    cacheVal (l.foldl (processRule self a pa) c) x b = cacheVal c x b := by
  induction l generalizing c with
  | nil => rfl
  | cons hd tl ih =>
    rw [List.foldl_cons, ih, cacheVal_processRule_frame self b pa c hd hx]

theorem InnerOk_processRuleset (self : List PackageId) (a : PackageId)
    (rs : ModRules) (pa : Nat) {c : IssueCache} (hc : InnerOk c) :
    InnerOk (processRuleset self c a rs pa) := by
  unfold processRuleset
  exact InnerOk_foldRules self a pa _
    (InnerOk_cacheSet a hc (NodupKeys_depFold _ (getInner_nodup hc a)))

theorem cacheVal_processRuleset (self : List PackageId) (a b : PackageId)
    (rs : ModRules) (pa : Nat) {c : IssueCache} (hc : InnerOk c) :
    cacheVal (processRuleset self c a rs pa) a b
      = rulesetEffect self b pa rs (cacheVal c a b) := by
  unfold processRuleset rulesetEffect
  rw [cacheVal_foldRules self a b pa _
    (InnerOk_cacheSet a hc (NodupKeys_depFold _ (getInner_nodup hc a)))]
  rw [cacheVal_cacheSet_self, lookupA_depFold b _ (depList_all_dep rs)]
  rfl

theorem cacheVal_processRuleset_frame (self : List PackageId) {x a : PackageId}
    (b : PackageId) (rs : ModRules) (pa : Nat) (c : IssueCache) (hx : x ≠ a) :
    cacheVal (processRuleset self c a rs pa) x b = cacheVal c x b := by
  unfold processRuleset
  rw [cacheVal_foldRules_frame self b pa _ _ hx, cacheVal_cacheSet_ne _ _ _ hx]

theorem InnerOk_processEntry (self : List PackageId) (e : PackageId × ModRules)
    {c : IssueCache} (hc : InnerOk c) : InnerOk (processEntry self c e) := by
  unfold processEntry
  cases get_index_of self e.1 with
  | none => exact hc
  | some pa => exact InnerOk_processRuleset self e.1 e.2 pa hc

theorem cacheVal_processEntry (self : List PackageId) (a b : PackageId)
    (e : PackageId × ModRules) {c : IssueCache} (hc : InnerOk c) :
    cacheVal (processEntry self c e) a b = entryEffect self a b e (cacheVal c a b) := by
  unfold processEntry entryEffect
  by_cases he : e.1 = a
  · rw [if_pos he, he]
    cases hpos : get_index_of self a with
    | none => rfl
    | some pa => exact cacheVal_processRuleset self a b e.2 pa hc
  · rw [if_neg he]
    cases hpos : get_index_of self e.1 with
    | none => rfl
    | some pa => exact cacheVal_processRuleset_frame self b e.2 pa c (fun hax => he hax.symm)

theorem InnerOk_processSource (self : List PackageId)
    (src : List (PackageId × ModRules)) {c : IssueCache} (hc : InnerOk c) :
    InnerOk (processSource self c src) := by
  unfold processSource
  induction src generalizing c with
  | nil => exact hc
  | cons hd tl ih => exact ih (InnerOk_processEntry self hd hc)

theorem cacheVal_processSource (self : List PackageId) (a b : PackageId)
    (src : List (PackageId × ModRules)) {c : IssueCache} (hc : InnerOk c) :
    cacheVal (processSource self c src) a b
      = src.foldl (fun cur e => entryEffect self a b e cur) (cacheVal c a b) := by
  unfold processSource
  induction src generalizing c with
  | nil => rfl
  | cons hd tl ih =>
    rw [List.foldl_cons, List.foldl_cons, ih (InnerOk_processEntry self hd hc),
      cacheVal_processEntry self a b hd hc]

theorem NodupKeys_cacheSet {c : IssueCache} (a : PackageId) (m : Issues)
    (hc : NodupKeys c) : NodupKeys (cacheSet c a m) :=
  NodupKeys_insertA a m hc

theorem NodupKeys_processRule (self : List PackageId) (a : PackageId) (pa : Nat)
    {c : IssueCache} (br : PackageId × ModRelation) (hc : NodupKeys c) :
    NodupKeys (processRule self a pa c br) := by
  obtain ⟨bt, r⟩ := br
  unfold processRule
  cases hpos : get_index_of self bt with
  | none => exact hc
  | some pb =>
    cases r with
    | Before =>
      dsimp only
      by_cases hlt : pb < pa
      · rw [if_pos hlt]; exact NodupKeys_cacheSet a _ hc
      · rw [if_neg hlt]; exact hc
    | After =>
      dsimp only
      by_cases hlt : pa < pb
      · rw [if_pos hlt]; exact NodupKeys_cacheSet a _ hc
      · rw [if_neg hlt]; exact hc
    | Dependency =>
      dsimp only
      by_cases hlt : pa < pb
      · rw [if_pos hlt]; exact NodupKeys_cacheSet a _ (NodupKeys_cacheSet a _ hc)
      · rw [if_neg hlt]; exact NodupKeys_cacheSet a _ hc
    | Incompatibility =>
      exact NodupKeys_cacheSet a _ hc

theorem NodupKeys_processRuleset (self : List PackageId) (a : PackageId)
    (rs : ModRules) (pa : Nat) {c : IssueCache} (hc : NodupKeys c) :
    NodupKeys (processRuleset self c a rs pa) := by
  unfold processRuleset
  have h1 : NodupKeys (cacheSet c a ((depList rs).foldl (fun m br => insertA br.1 br.2 m) (getInner c a))) :=
    NodupKeys_cacheSet a _ hc
  generalize (cacheSet c a ((depList rs).foldl (fun m br => insertA br.1 br.2 m) (getInner c a))) = c1 at h1 ⊢
  induction rs.rules generalizing c1 with
  | nil => exact h1
  | cons hd tl ih =>
    rw [List.foldl_cons]
    exact ih _ (NodupKeys_processRule self a pa hd h1)

theorem NodupKeys_processEntry (self : List PackageId) (e : PackageId × ModRules)
    {c : IssueCache} (hc : NodupKeys c) : NodupKeys (processEntry self c e) := by
  unfold processEntry
  cases get_index_of self e.1 with
  | none => exact hc
  | some pa => exact NodupKeys_processRuleset self e.1 e.2 pa hc

theorem NodupKeys_processSource (self : List PackageId)
    (src : List (PackageId × ModRules)) {c : IssueCache} (hc : NodupKeys c) :
    NodupKeys (processSource self c src) := by
  unfold processSource
  induction src generalizing c with
  | nil => exact hc
  | cons hd tl ih => exact ih (NodupKeys_processEntry self hd hc)

theorem NodupKeys_dbFold (self : List PackageId) (db : ModRuleDb)
    {c : IssueCache} (hc : NodupKeys c) :
    NodupKeys (db.foldl (fun c s => processSource self c s.2) c) := by
  induction db generalizing c with
  | nil => exact hc
  | cons hd tl ih => exact ih (NodupKeys_processSource self hd.2 hc)

theorem InnerOk_dbFold (self : List PackageId) (db : ModRuleDb)
    {c : IssueCache} (hc : InnerOk c) :
    InnerOk (db.foldl (fun c s => processSource self c s.2) c) := by
  induction db generalizing c with
  | nil => exact hc
  | cons hd tl ih => exact ih (InnerOk_processSource self hd.2 hc)

theorem cacheVal_dbFold (self : List PackageId) (a b : PackageId) (db : ModRuleDb)
    {c : IssueCache} (hc : InnerOk c) :
    cacheVal (db.foldl (fun c s => processSource self c s.2) c) a b
      = db.foldl (fun cur s => s.2.foldl (fun cur e => entryEffect self a b e cur) cur)
          (cacheVal c a b) := by
  induction db generalizing c with
  | nil => rfl
  | cons hd tl ih =>
    rw [List.foldl_cons, List.foldl_cons, ih (InnerOk_processSource self hd.2 hc),
      cacheVal_processSource self a b hd.2 hc]

theorem cacheVal_filter {c : IssueCache} (a b : PackageId) (hc : NodupKeys c) :
    cacheVal (c.filter (fun e => !e.2.isEmpty)) a b = cacheVal c a b := by
  induction c with
  | nil => rfl
  | cons hd tl ih =>
    obtain ⟨x, m⟩ := hd
    have hnd : x ∉ tl.map Prod.fst ∧ NodupKeys tl := by
      simpa [NodupKeys] using hc
    cases m with
    | nil =>
      rw [show ((x, ([] : Issues)) :: tl).filter (fun e => !e.2.isEmpty)
          = tl.filter (fun e => !e.2.isEmpty) from by simp]
      by_cases hax : a = x
      · subst hax
        have h1 : lookupA a (tl.filter (fun e => !e.2.isEmpty)) = none := by
          apply lookupA_eq_none_of_not_mem_keys
          intro hmem
          rcases List.mem_map.mp hmem with ⟨e, he, hx⟩
          exact hnd.1 (hx ▸ List.mem_map_of_mem Prod.fst (List.mem_filter.mp he).1)
        unfold cacheVal getInner
        rw [h1, show lookupA a ((a, ([] : Issues)) :: tl) = some [] from by simp [lookupA]]
        rfl
      · unfold cacheVal getInner
        rw [show lookupA a ((x, ([] : Issues)) :: tl) = lookupA a tl from by
          simp [lookupA, hax]]
        have := ih hnd.2
        unfold cacheVal getInner at this
        exact this
    | cons i0 m0 =>
      rw [show ((x, i0 :: m0) :: tl).filter (fun e => !e.2.isEmpty)
          = (x, i0 :: m0) :: tl.filter (fun e => !e.2.isEmpty) from by simp]
      by_cases hax : a = x
      · unfold cacheVal getInner
        rw [show lookupA a ((x, i0 :: m0) :: tl) = some (i0 :: m0) from by simp [lookupA, hax],
          show lookupA a ((x, i0 :: m0) :: tl.filter (fun e => !e.2.isEmpty)) = some (i0 :: m0) from by
            simp [lookupA, hax]]
      · unfold cacheVal getInner
        rw [show lookupA a ((x, i0 :: m0) :: tl) = lookupA a tl from by simp [lookupA, hax],
          show lookupA a ((x, i0 :: m0) :: tl.filter (fun e => !e.2.isEmpty))
            = lookupA a (tl.filter (fun e => !e.2.isEmpty)) from by simp [lookupA, hax]]
        have := ih hnd.2
        unfold cacheVal getInner at this
        exact this

/-- Content characterization of the detector: the issue `find_list_issues`
records for any pair `(a, b)` is exactly the composition `issueFor` of the
per-source rule effects for that pair. -/
theorem cacheVal_find_list_issues (self : List PackageId) (db : ModRuleDb)
    (a b : PackageId) :
    cacheVal (find_list_issues self db) a b = issueFor self db a b := by
  unfold find_list_issues issueFor
  rw [cacheVal_filter a b (NodupKeys_dbFold self db (by simp [NodupKeys]))]
  exact cacheVal_dbFold self a b db (by intro e he; simp at he)

theorem shapeOk_ruleEffect {self : List PackageId} {b : PackageId} {pa : Nat}
    (br : PackageId × ModRelation) {cur : Option ModRelation}
    (h : shapeOk self b cur) : shapeOk self b (ruleEffect self pa b br cur) := by
  unfold ruleEffect
  by_cases hbr : br.1 = b
  · rw [if_pos hbr]
    cases hpos : get_index_of self b with
    | none => exact h
    | some pb =>
      cases br.2 with
      | Before =>
        dsimp only
        by_cases hlt : pb < pa
        · rw [if_pos hlt]; simp [shapeOk, hpos]
        · rw [if_neg hlt]; exact h
      | After =>
        dsimp only
        by_cases hlt : pa < pb
        · rw [if_pos hlt]; simp [shapeOk, hpos]
        · rw [if_neg hlt]; exact h
      | Dependency =>
        dsimp only
        by_cases hlt : pa < pb
        · rw [if_pos hlt]; simp [shapeOk, hpos]
        · rw [if_neg hlt]; simp [shapeOk]
      | Incompatibility =>
        simp [shapeOk, hpos]
  · rw [if_neg hbr]
    exact h

theorem shapeOk_foldRules {self : List PackageId} {b : PackageId} {pa : Nat}
    (l : List (PackageId × ModRelation)) {cur : Option ModRelation}
    (h : shapeOk self b cur) :
    shapeOk self b (l.foldl (fun o br => ruleEffect self pa b br o) cur) := by
  induction l generalizing cur with
  | nil => exact h
  | cons hd tl ih => exact ih (shapeOk_ruleEffect hd h)

theorem shapeOk_rulesetEffect {self : List PackageId} {b : PackageId} {pa : Nat}
    (rs : ModRules) {cur : Option ModRelation} (h : shapeOk self b cur) :
    shapeOk self b (rulesetEffect self b pa rs cur) := by
  unfold rulesetEffect
  by_cases hany : (depList rs).any (fun br => decide (br.1 = b)) = true
  · rw [if_pos hany]
    rcases List.any_eq_true.mp hany with ⟨br, hbr, hdec⟩
    have hb : br.1 = b := of_decide_eq_true hdec
    have hdep : br.2 = ModRelation.Dependency := depList_all_dep rs br hbr
    rcases List.mem_filterMap.mp hbr with ⟨orig, horig, hf⟩
    have horig2 : orig.2 = ModRelation.Dependency := by
      by_cases hd2 : orig.2 = ModRelation.Dependency
      · exact hd2
      · rw [if_neg hd2] at hf
        exact absurd hf (by simp)
    have horig1 : orig.1 = b := by
      rw [if_pos horig2] at hf
      injection hf with hf
      rw [← hb, ← hf]
    have hmem : (b, ModRelation.Dependency) ∈ rs.rules := by
      have : orig = (b, ModRelation.Dependency) := by
        obtain ⟨o1, o2⟩ := orig
        simp only at horig1 horig2
        rw [horig1, horig2]
      exact this ▸ horig
    cases hpos : get_index_of self b with
    | none =>
      apply shapeOk_foldRules
      simp [shapeOk, hpos]
    | some pb =>
      rcases List.append_of_mem hmem with ⟨l1, l2, hsplit⟩
      rw [hsplit, List.foldl_append, List.foldl_cons]
      apply shapeOk_foldRules
      unfold ruleEffect
      dsimp only
      rw [if_pos rfl, hpos]
      dsimp only
      by_cases hlt : pa < pb
      · rw [if_pos hlt]; simp [shapeOk, hpos]
      · rw [if_neg hlt]; simp [shapeOk]
  · rw [if_neg hany]
    exact shapeOk_foldRules _ h

theorem shapeOk_entryEffect {self : List PackageId} {a b : PackageId}
    (e : PackageId × ModRules) {cur : Option ModRelation} (h : shapeOk self b cur) :
    shapeOk self b (entryEffect self a b e cur) := by
  unfold entryEffect
  by_cases he : e.1 = a
  · rw [if_pos he]
    cases get_index_of self a with
    | none => exact h
    | some pa => exact shapeOk_rulesetEffect e.2 h
  · rw [if_neg he]
    exact h

theorem shapeOk_srcFold {self : List PackageId} {a b : PackageId}
    (src : List (PackageId × ModRules)) {cur : Option ModRelation}
    (h : shapeOk self b cur) :
    shapeOk self b (src.foldl (fun cur e => entryEffect self a b e cur) cur) := by
  induction src generalizing cur with
  | nil => exact h
  | cons e tl ih => exact ih (shapeOk_entryEffect e h)

theorem shapeOk_issueFor (self : List PackageId) (db : ModRuleDb) (a b : PackageId) :
    shapeOk self b (issueFor self db a b) := by
  unfold issueFor
  have hstart : shapeOk self b none := by simp [shapeOk]
  generalize (none : Option ModRelation) = cur at hstart ⊢
  induction db generalizing cur with
  | nil => exact hstart
  | cons hd tl ih =>
    rw [List.foldl_cons]
    exact ih _ (shapeOk_srcFold (a := a) hd.2 hstart)

theorem get_index_of_eq_none_iff (l : List PackageId) (k : PackageId) :
    get_index_of l k = none ↔ k ∉ l := by
  induction l with
  | nil => simp [get_index_of]
  | cons x xs ih =>
    by_cases hx : x = k
    · simp [get_index_of, hx]
    · simp only [get_index_of, if_neg hx, List.mem_cons]
      cases h : get_index_of xs k with
      | none =>
        simp only [Option.map_none']
        have h1 : k ∉ xs := ih.mp h
        have h2 : ¬ k = x := fun he => hx he.symm
        simp [h1, h2]
      | some i =>
        simp only [Option.map_some']
        constructor
        · intro hc
          exact absurd hc (by simp)
        · intro hc
          have : k ∈ xs := by
            by_contra hk
            rw [ih.mpr hk] at h
            exact absurd h (by simp)
          exact absurd (Or.inr this) hc

theorem KeysOk_cacheSet {self : List PackageId} {c : IssueCache} {a : PackageId}
    (m : Issues) (ha : get_index_of self a ≠ none) (hc : KeysOk self c) :
    KeysOk self (cacheSet c a m) := by
  intro e he
  rcases mem_insertA he with rfl | he
  · exact ha
  · exact hc _ he

theorem KeysOk_processRule {self : List PackageId} {a : PackageId} (pa : Nat)
    {c : IssueCache} (br : PackageId × ModRelation)
    (ha : get_index_of self a ≠ none) (hc : KeysOk self c) :
    KeysOk self (processRule self a pa c br) := by
  obtain ⟨bt, r⟩ := br
  unfold processRule
  cases hpos : get_index_of self bt with
  | none => exact hc
  | some pb =>
    cases r with
    | Before =>
      dsimp only
      by_cases hlt : pb < pa
      · rw [if_pos hlt]; exact KeysOk_cacheSet _ ha hc
      · rw [if_neg hlt]; exact hc
    | After =>
      dsimp only
      by_cases hlt : pa < pb
      · rw [if_pos hlt]; exact KeysOk_cacheSet _ ha hc
      · rw [if_neg hlt]; exact hc
    | Dependency =>
      dsimp only
      by_cases hlt : pa < pb
      · rw [if_pos hlt]; exact KeysOk_cacheSet _ ha (KeysOk_cacheSet _ ha hc)
      · rw [if_neg hlt]; exact KeysOk_cacheSet _ ha hc
    | Incompatibility =>
      exact KeysOk_cacheSet _ ha hc

theorem KeysOk_processRuleset {self : List PackageId} {a : PackageId}
    (rs : ModRules) (pa : Nat) {c : IssueCache}
    (ha : get_index_of self a ≠ none) (hc : KeysOk self c) :
    KeysOk self (processRuleset self c a rs pa) := by
  unfold processRuleset
  have h1 : KeysOk self (cacheSet c a ((depList rs).foldl (fun m br => insertA br.1 br.2 m) (getInner c a))) :=
    KeysOk_cacheSet _ ha hc
  generalize (cacheSet c a ((depList rs).foldl (fun m br => insertA br.1 br.2 m) (getInner c a))) = c1 at h1 ⊢
  induction rs.rules generalizing c1 with
  | nil => exact h1
  | cons hd tl ih =>
    rw [List.foldl_cons]
    exact ih _ (KeysOk_processRule pa hd ha h1)

theorem KeysOk_processEntry {self : List PackageId} (e : PackageId × ModRules)
    {c : IssueCache} (hc : KeysOk self c) : KeysOk self (processEntry self c e) := by
  unfold processEntry
  cases hpos : get_index_of self e.1 with
  | none => exact hc
  | some pa => exact KeysOk_processRuleset e.2 pa (by simp [hpos]) hc

theorem KeysOk_processSource {self : List PackageId}
    (src : List (PackageId × ModRules)) {c : IssueCache} (hc : KeysOk self c) :
    KeysOk self (processSource self c src) := by
  unfold processSource
  induction src generalizing c with
  | nil => exact hc
  | cons hd tl ih => exact ih (KeysOk_processEntry hd hc)

theorem KeysOk_find_list_issues (self : List PackageId) (db : ModRuleDb) :
    KeysOk self (find_list_issues self db) := by
  unfold find_list_issues
  have hfold : KeysOk self (db.foldl (fun c s => processSource self c s.2) []) := by
    have hstart : KeysOk self ([] : IssueCache) := by intro e he; simp at he
    generalize ([] : IssueCache) = c at hstart ⊢
    induction db generalizing c with
    | nil => exact hstart
    | cons hd tl ih =>
      rw [List.foldl_cons]
      exact ih _ (KeysOk_processSource hd.2 hstart)
  intro e he
  exact hfold _ (List.mem_filter.mp he).1

theorem InnerOk_find_list_issues (self : List PackageId) (db : ModRuleDb) :
    InnerOk (find_list_issues self db) := by
  unfold find_list_issues
  have hfold : InnerOk (db.foldl (fun c s => processSource self c s.2) []) :=
    InnerOk_dbFold self db (by intro e he; simp at he)
  intro e he
  exact hfold _ (List.mem_filter.mp he).1

theorem NodupKeys_find_list_issues (self : List PackageId) (db : ModRuleDb) :
    NodupKeys (find_list_issues self db) := by
  unfold find_list_issues
  have hfold : NodupKeys (db.foldl (fun c s => processSource self c s.2) []) :=
    NodupKeys_dbFold self db (by simp [NodupKeys])
  unfold NodupKeys
  exact List.Nodup.sublist (List.Sublist.map Prod.fst (List.filter_sublist _)) hfold

/-- C10.  The cache returned by `find_list_issues` is well-formed: every
declaring key is present in the list, every recorded issue set is nonempty,
issues with relation `Before`, `After` or `Incompatibility` have their
target present in the list, and `Dependency` issues have their target absent
from it. -/
theorem find_list_issues_wellformed (db : ModRuleDb) (L : List PackageId)
    (a : PackageId) (m : Issues) (hm : (a, m) ∈ find_list_issues L db) :
    a ∈ L ∧ m ≠ [] ∧ ∀ b r, (b, r) ∈ m →
      ((r = ModRelation.Dependency → b ∉ L) ∧
       (r ≠ ModRelation.Dependency → b ∈ L)) := by
  have hkeys := KeysOk_find_list_issues L db (a, m) hm
  have hne : m ≠ [] := by
    intro he
    subst he
    have h2 := (List.mem_filter.mp (by unfold find_list_issues at hm; exact hm)).2
    simp at h2
  refine ⟨?_, hne, ?_⟩
  · by_contra hmemL
    exact hkeys ((get_index_of_eq_none_iff L a).mpr hmemL)
  · intro b r hbr
    have hlk : lookupA a (find_list_issues L db) = some m :=
      mem_lookupA (NodupKeys_find_list_issues L db) hm
    have hin : NodupKeys m := InnerOk_find_list_issues L db (a, m) hm
    have hval : cacheVal (find_list_issues L db) a b = some r := by
      unfold cacheVal getInner
      rw [hlk]
      exact mem_lookupA hin hbr
    rw [cacheVal_find_list_issues] at hval
    have hshape := shapeOk_issueFor L db a b
    rw [hval] at hshape
    constructor
    · intro hr
      subst hr
      have hnone : get_index_of L b = none := by simpa [shapeOk] using hshape
      exact (get_index_of_eq_none_iff L b).mp hnone
    · intro hr
      have hpos : get_index_of L b ≠ none := by
        cases r with
        | Dependency => exact absurd rfl hr
        | Before => simpa [shapeOk] using hshape
        | After => simpa [shapeOk] using hshape
        | Incompatibility => simpa [shapeOk] using hshape
      by_contra hmemL
      exact hpos ((get_index_of_eq_none_iff L b).mpr hmemL)

/-- Witness for `find_list_issues_wellformed` at the concrete cache computed
for the database `A: Dependency C` and list `[A]`. -/
theorem find_list_issues_wellformed_witness :
    pA ∈ [pA] ∧ [(pC, ModRelation.Dependency)] ≠ ([] : Issues) ∧
      ∀ b r, (b, r) ∈ [(pC, ModRelation.Dependency)] →
        ((r = ModRelation.Dependency → b ∉ [pA]) ∧
         (r ≠ ModRelation.Dependency → b ∈ [pA])) :=
  find_list_issues_wellformed depDb [pA] pA [(pC, ModRelation.Dependency)] (by decide)

theorem dep_mem_of_any {rs : ModRules} {b : PackageId}
    (hany : (depList rs).any (fun br => decide (br.1 = b)) = true) :
    (b, ModRelation.Dependency) ∈ rs.rules := by
  rcases List.any_eq_true.mp hany with ⟨br, hbr, hdec⟩
  have hb : br.1 = b := of_decide_eq_true hdec
  rcases List.mem_filterMap.mp hbr with ⟨orig, horig, hf⟩
  have horig2 : orig.2 = ModRelation.Dependency := by
    by_cases hd2 : orig.2 = ModRelation.Dependency
    · exact hd2
    · rw [if_neg hd2] at hf
      exact absurd hf (by simp)
  have horig1 : orig.1 = b := by
    rw [if_pos horig2] at hf
    injection hf with hf
    rw [← hb, ← hf]
  have : orig = (b, ModRelation.Dependency) := by
    obtain ⟨o1, o2⟩ := orig
    simp only at horig1 horig2
    rw [horig1, horig2]
  exact this ▸ horig

theorem ruleEffect_satisfied {L : List PackageId} {a b : PackageId} {pa : Nat}
    (br : PackageId × ModRelation) (ha : get_index_of L a = some pa)
    (hsat : ruleSatisfied L a br = true) (cur : Option ModRelation) :
    ruleEffect L pa b br cur = cur ∨ ruleEffect L pa b br cur = none := by
  unfold ruleEffect
  by_cases hbr : br.1 = b
  · rw [if_pos hbr]
    cases hposb : get_index_of L b with
    | none => exact Or.inl rfl
    | some pb =>
      unfold ruleSatisfied at hsat
      rw [ha, hbr, hposb] at hsat
      cases hr : br.2 with
      | Before =>
        rw [hr] at hsat
        dsimp only at hsat ⊢
        have hlt : pa < pb := of_decide_eq_true hsat
        rw [if_neg (by omega)]
        exact Or.inl rfl
      | After =>
        rw [hr] at hsat
        dsimp only at hsat ⊢
        have hlt : pb < pa := of_decide_eq_true hsat
        rw [if_neg (by omega)]
        exact Or.inl rfl
      | Dependency =>
        rw [hr] at hsat
        dsimp only at hsat ⊢
        have hlt : pb < pa := of_decide_eq_true hsat
        rw [if_neg (by omega)]
        exact Or.inr rfl
      | Incompatibility =>
        rw [hr] at hsat
        exact absurd hsat (by simp)
  · rw [if_neg hbr]
    exact Or.inl rfl

theorem foldRules_satisfied_none {L : List PackageId} {a b : PackageId} {pa : Nat}
    (l : List (PackageId × ModRelation)) (ha : get_index_of L a = some pa)
    (hsat : ∀ br ∈ l, ruleSatisfied L a br = true) :
    l.foldl (fun o br => ruleEffect L pa b br o) none = none := by
  induction l with
  | nil => rfl
  | cons hd tl ih =>
    rw [List.foldl_cons]
    rcases ruleEffect_satisfied hd ha (hsat hd (List.mem_cons_self _ _)) none with h | h <;>
      rw [h] <;> exact ih (fun br hbr => hsat br (List.mem_cons_of_mem _ hbr))

theorem foldRules_satisfied_cases {L : List PackageId} {a b : PackageId} {pa : Nat}
    (l : List (PackageId × ModRelation)) (ha : get_index_of L a = some pa)
    (hsat : ∀ br ∈ l, ruleSatisfied L a br = true) (cur : Option ModRelation) :
    l.foldl (fun o br => ruleEffect L pa b br o) cur = cur ∨
    l.foldl (fun o br => ruleEffect L pa b br o) cur = none := by
  induction l generalizing cur with
  | nil => exact Or.inl rfl
  | cons hd tl ih =>
    rw [List.foldl_cons]
    rcases ruleEffect_satisfied hd ha (hsat hd (List.mem_cons_self _ _)) cur with h | h
    · rw [h]
      exact ih (fun br hbr => hsat br (List.mem_cons_of_mem _ hbr)) cur
    · rw [h]
      exact Or.inr (foldRules_satisfied_none tl ha
        (fun br hbr => hsat br (List.mem_cons_of_mem _ hbr)))

theorem rulesetEffect_satisfied_none {L : List PackageId} {a b : PackageId} {pa : Nat}
    (rs : ModRules) (ha : get_index_of L a = some pa)
    (hsat : ∀ br ∈ rs.rules, ruleSatisfied L a br = true)
    (hdep : ∀ br ∈ rs.rules, depRuleOk L a br = true) :
    rulesetEffect L b pa rs none = none := by
  unfold rulesetEffect
  by_cases hany : (depList rs).any (fun br => decide (br.1 = b)) = true
  · rw [if_pos hany]
    have hmem := dep_mem_of_any hany
    have hd := hdep _ hmem
    unfold depRuleOk at hd
    rw [ha] at hd
    dsimp only at hd
    rcases Option.isSome_iff_exists.mp hd with ⟨pb, hposb⟩
    have hs := hsat _ hmem
    unfold ruleSatisfied at hs
    rw [ha, hposb] at hs
    dsimp only at hs
    have hlt : pb < pa := of_decide_eq_true hs
    rcases List.append_of_mem hmem with ⟨l1, l2, hsplit⟩
    have hsat1 : ∀ br ∈ l1, ruleSatisfied L a br = true := by
      intro br hbr
      exact hsat br (by rw [hsplit]; exact List.mem_append_left _ hbr)
    have hsat2 : ∀ br ∈ l2, ruleSatisfied L a br = true := by
      intro br hbr
      exact hsat br (by rw [hsplit]; exact List.mem_append_right _ (List.mem_cons_of_mem _ hbr))
    have hstep : ∀ X : Option ModRelation,
        ruleEffect L pa b (b, ModRelation.Dependency) X = none := by
      intro X
      unfold ruleEffect
      dsimp only
      rw [if_pos rfl, hposb]
      dsimp only
      rw [if_neg (by omega)]
    rw [hsplit, List.foldl_append, List.foldl_cons]
    rcases foldRules_satisfied_cases l1 ha hsat1 (some ModRelation.Dependency) with h1 | h1 <;>
    · rw [h1, hstep]
      exact foldRules_satisfied_none l2 ha hsat2
  · rw [if_neg hany]
    exact foldRules_satisfied_none rs.rules ha hsat

theorem entryEffect_satisfied_none {L : List PackageId} {a b : PackageId}
    (e : PackageId × ModRules)
    (hsat : ∀ br ∈ e.2.rules, ruleSatisfied L e.1 br = true)
    (hdep : ∀ br ∈ e.2.rules, depRuleOk L e.1 br = true) :
    entryEffect L a b e none = none := by
  unfold entryEffect
  by_cases he : e.1 = a
  · rw [if_pos he]
    cases ha : get_index_of L a with
    | none => rfl
    | some pa =>
      exact rulesetEffect_satisfied_none e.2 ha (he ▸ hsat) (he ▸ hdep)
  · rw [if_neg he]

theorem srcFold_satisfied_none {L : List PackageId} {a b : PackageId}
    (src : List (PackageId × ModRules))
    (h : ∀ e ∈ src, (∀ br ∈ e.2.rules, ruleSatisfied L e.1 br = true) ∧
      (∀ br ∈ e.2.rules, depRuleOk L e.1 br = true)) :
    src.foldl (fun cur e => entryEffect L a b e cur) none = none := by
  induction src with
  | nil => rfl
  | cons e tl ih =>
    rw [List.foldl_cons,
      entryEffect_satisfied_none e (h e (List.mem_cons_self _ _)).1 (h e (List.mem_cons_self _ _)).2]
    exact ih (fun e2 he2 => h e2 (List.mem_cons_of_mem _ he2))

theorem issueFor_satisfied_none {L : List PackageId} {db : ModRuleDb}
    (hpos : positionalOk L db) (hdep : depTargetsPresent L db) (a b : PackageId) :
    issueFor L db a b = none := by
  unfold issueFor
  induction db with
  | nil => rfl
  | cons hd tl ih =>
    rw [List.foldl_cons, srcFold_satisfied_none hd.2 (fun e he =>
      ⟨fun br hbr => hpos hd (List.mem_cons_self _ _) e he br hbr,
       fun br hbr => hdep hd (List.mem_cons_self _ _) e he br hbr⟩)]
    exact ih (fun src hsrc => hpos src (List.mem_cons_of_mem _ hsrc))
      (fun src hsrc => hdep src (List.mem_cons_of_mem _ hsrc))

/-- C2 amended.  If every relation with both endpoints present satisfies its
positional condition and, additionally, every `Dependency` relation of a
present declarer has its target present, then the detector returns an empty
cache.  (The original claim lacked the dependency-target side condition:
see `no_false_positives_cex`.) -/
theorem find_list_issues_satisfied_empty (L : List PackageId) (db : ModRuleDb)
    (hpos : positionalOk L db) (hdep : depTargetsPresent L db) :
    find_list_issues L db = [] := by
  cases hc : find_list_issues L db with
  | nil => rfl
  | cons e t =>
    exfalso
    obtain ⟨x, m⟩ := e
    have hm : (x, m) ∈ find_list_issues L db := by
      rw [hc]
      exact List.mem_cons_self _ _
    have hne : m ≠ [] := by
      intro he
      subst he
      have h2 := (List.mem_filter.mp (by unfold find_list_issues at hm; exact hm)).2
      simp at h2
    obtain ⟨⟨b, r⟩, hbr⟩ : ∃ p, p ∈ m := by
      cases m with
      | nil => exact absurd rfl hne
      | cons p t2 => exact ⟨p, List.mem_cons_self _ _⟩
    have hlk : lookupA x (find_list_issues L db) = some m :=
      mem_lookupA (NodupKeys_find_list_issues L db) hm
    have hval : cacheVal (find_list_issues L db) x b = some r := by
      unfold cacheVal getInner
      rw [hlk]
      exact mem_lookupA (InnerOk_find_list_issues L db (x, m) hm) hbr
    rw [cacheVal_find_list_issues, issueFor_satisfied_none hpos hdep] at hval
    exact absurd hval (by simp)

/-- Witness for `find_list_issues_satisfied_empty`: the database
`A: Before B` with the list `[A, B]` satisfies both hypotheses and indeed
yields no issues. -/
theorem find_list_issues_satisfied_empty_witness :
    positionalOk [pA, pB] beforeDb ∧ depTargetsPresent [pA, pB] beforeDb ∧
      find_list_issues [pA, pB] beforeDb = [] :=
  ⟨by decide, by decide,
    find_list_issues_satisfied_empty [pA, pB] beforeDb (by decide) (by decide)⟩

theorem foldl_append_acc {α β : Type} (f : α → List β) (l : List α) (acc : List β) :
    l.foldl (fun a x => a ++ f x) acc = acc ++ l.foldl (fun a x => a ++ f x) [] := by
  induction l generalizing acc with
  | nil => simp
  | cons hd tl ih =>
    rw [List.foldl_cons, List.foldl_cons, ih (acc ++ f hd), ih ([] ++ f hd)]
    simp

theorem srcRels_cons (a b : PackageId) (e : PackageId × ModRules)
    (tl : List (PackageId × ModRules)) :
    srcRels a b (e :: tl) = entryRels a b e ++ srcRels a b tl := by
  unfold srcRels
  rw [List.foldl_cons, foldl_append_acc (entryRels a b)]
  simp

theorem relsFor_cons (a b : PackageId) (s : ModdbType × List (PackageId × ModRules))
    (tl : ModRuleDb) :
    relsFor (s :: tl) a b = srcRels a b s.2 ++ relsFor tl a b := by
  unfold relsFor
  rw [List.foldl_cons]
  exact (foldl_append_acc
    (fun (s : ModdbType × List (PackageId × ModRules)) => srcRels a b s.2) tl
    ([] ++ srcRels a b s.2)).trans (by simp)

theorem any_depList_iff (rs : ModRules) (b : PackageId) :
    (depList rs).any (fun br => decide (br.1 = b)) = true ↔
      (b, ModRelation.Dependency) ∈ rs.rules := by
  constructor
  · exact dep_mem_of_any
  · intro hmem
    apply List.any_eq_true.mpr
    refine ⟨(b, ModRelation.Dependency), ?_, by simp⟩
    unfold depList
    exact List.mem_filterMap.mpr ⟨(b, ModRelation.Dependency), hmem, by simp⟩

theorem foldRules_id {L : List PackageId} {b : PackageId} {pa : Nat}
    (l : List (PackageId × ModRelation)) (h : ∀ br ∈ l, br.1 ≠ b)
    (cur : Option ModRelation) :
    l.foldl (fun o br => ruleEffect L pa b br o) cur = cur := by
  induction l generalizing cur with
  | nil => rfl
  | cons hd tl ih =>
    rw [List.foldl_cons]
    rw [show ruleEffect L pa b hd cur = cur from by
      unfold ruleEffect
      rw [if_neg (h hd (List.mem_cons_self _ _))]]
    exact ih (fun br hbr => h br (List.mem_cons_of_mem _ hbr)) cur

theorem filter_eq_single_split {α : Type} (p : α → Bool) (l : List α) (x : α)
    (h : l.filter p = [x]) :
    ∃ l1 l2, l = l1 ++ x :: l2 ∧ (∀ y ∈ l1, ¬ p y = true) ∧ (∀ y ∈ l2, ¬ p y = true) := by
  induction l with
  | nil => simp at h
  | cons hd tl ih =>
    by_cases hp : p hd = true
    · rw [List.filter_cons_of_pos hp] at h
      injection h with h1 h2
      subst h1
      refine ⟨[], tl, by simp, by simp, ?_⟩
      intro y hy hpy
      have : y ∈ tl.filter p := List.mem_filter.mpr ⟨hy, hpy⟩
      rw [h2] at this
      simp at this
    · rw [List.filter_cons_of_neg hp] at h
      rcases ih h with ⟨l1, l2, hsplit, h1, h2⟩
      exact ⟨hd :: l1, l2, by rw [hsplit]; rfl, by
        intro y hy
        rcases List.mem_cons.mp hy with rfl | hy
        · exact fun hc => hp hc
        · exact h1 y hy, h2⟩

theorem entryEffect_id {L : List PackageId} {a b : PackageId}
    (e : PackageId × ModRules) (h : entryRels a b e = [])
    (cur : Option ModRelation) : entryEffect L a b e cur = cur := by
  unfold entryEffect
  by_cases he : e.1 = a
  · rw [if_pos he]
    unfold entryRels at h
    rw [if_pos he] at h
    have hfil : e.2.rules.filter (fun br => decide (br.1 = b)) = [] := by
      cases hf : e.2.rules.filter (fun br => decide (br.1 = b)) with
      | nil => rfl
      | cons q t =>
        rw [hf] at h
        simp at h
    have hnob : ∀ br ∈ e.2.rules, br.1 ≠ b := by
      intro br hbr hb
      have : br ∈ e.2.rules.filter (fun br => decide (br.1 = b)) :=
        List.mem_filter.mpr ⟨hbr, by simp [hb]⟩
      rw [hfil] at this
      simp at this
    cases get_index_of L a with
    | none => rfl
    | some pa =>
      unfold rulesetEffect
      have hany : ¬ (depList e.2).any (fun br => decide (br.1 = b)) = true := by
        intro hc
        exact hnob _ (dep_mem_of_any hc) rfl
      rw [if_neg hany]
      exact foldRules_id _ hnob cur
  · rw [if_neg he]

theorem srcFold_id {L : List PackageId} {a b : PackageId}
    (src : List (PackageId × ModRules)) (h : srcRels a b src = [])
    (cur : Option ModRelation) :
    src.foldl (fun cur e => entryEffect L a b e cur) cur = cur := by
  induction src generalizing cur with
  | nil => rfl
  | cons e tl ih =>
    rw [srcRels_cons] at h
    rcases List.append_eq_nil.mp h with ⟨h1, h2⟩
    rw [List.foldl_cons, entryEffect_id e h1 cur]
    exact ih h2 cur

theorem rulesetEffect_single {L : List PackageId} {b : PackageId} {pa : Nat}
    (rs : ModRules) (r : ModRelation)
    (hfil : rs.rules.filter (fun br => decide (br.1 = b)) = [(b, r)]) :
    rulesetEffect L b pa rs none = relStepNone L b pa r := by
  rcases filter_eq_single_split _ _ _ hfil with ⟨l1, l2, hsplit, h1, h2⟩
  have h1ne : ∀ br ∈ l1, br.1 ≠ b := by
    intro br hbr hb
    exact h1 br hbr (by simp [hb])
  have h2ne : ∀ br ∈ l2, br.1 ≠ b := by
    intro br hbr hb
    exact h2 br hbr (by simp [hb])
  have hdepany : (depList rs).any (fun br => decide (br.1 = b)) = true ↔
      r = ModRelation.Dependency := by
    rw [any_depList_iff]
    constructor
    · intro hmem
      have : (b, ModRelation.Dependency) ∈ rs.rules.filter (fun br => decide (br.1 = b)) :=
        List.mem_filter.mpr ⟨hmem, by simp⟩
      rw [hfil] at this
      rcases List.mem_singleton.mp this with h
      injection h with _ h
      exact h.symm
    · intro hr
      subst hr
      rw [hsplit]
      exact List.mem_append_right _ (List.mem_cons_self _ _)
  clear hfil h1 h2
  unfold rulesetEffect
  cases r with
  | Dependency =>
    rw [if_pos (hdepany.mpr rfl)]
    rw [hsplit, List.foldl_append, List.foldl_cons,
      foldRules_id l1 h1ne (some ModRelation.Dependency)]
    cases hposb : get_index_of L b with
    | none =>
      rw [show ruleEffect L pa b (b, ModRelation.Dependency) (some ModRelation.Dependency)
          = some ModRelation.Dependency from by simp [ruleEffect, hposb]]
      rw [foldRules_id l2 h2ne _]
      simp [relStepNone, hposb]
    | some pb =>
      rw [show ruleEffect L pa b (b, ModRelation.Dependency) (some ModRelation.Dependency)
          = (if pa < pb then some ModRelation.After else none) from by
        simp [ruleEffect, hposb]]
      by_cases hlt : pa < pb
      · rw [if_pos hlt, foldRules_id l2 h2ne _]
        simp [relStepNone, hposb, hlt]
      · rw [if_neg hlt, foldRules_id l2 h2ne _]
        simp [relStepNone, hposb, hlt]
  | Before =>
    rw [if_neg (fun hc => by simpa using hdepany.mp hc)]
    rw [hsplit, List.foldl_append, List.foldl_cons, foldRules_id l1 h1ne none]
    cases hposb : get_index_of L b with
    | none =>
      rw [show ruleEffect L pa b (b, ModRelation.Before) none = none from by
        simp [ruleEffect, hposb]]
      rw [foldRules_id l2 h2ne _]
      simp [relStepNone, hposb]
    | some pb =>
      rw [show ruleEffect L pa b (b, ModRelation.Before) none
          = (if pb < pa then some ModRelation.Before else none) from by
        simp [ruleEffect, hposb]]
      by_cases hlt : pb < pa
      · rw [if_pos hlt, foldRules_id l2 h2ne _]
        simp [relStepNone, hposb, hlt]
      · rw [if_neg hlt, foldRules_id l2 h2ne _]
        simp [relStepNone, hposb, hlt]
  | After =>
    rw [if_neg (fun hc => by simpa using hdepany.mp hc)]
    rw [hsplit, List.foldl_append, List.foldl_cons, foldRules_id l1 h1ne none]
    cases hposb : get_index_of L b with
    | none =>
      rw [show ruleEffect L pa b (b, ModRelation.After) none = none from by
        simp [ruleEffect, hposb]]
      rw [foldRules_id l2 h2ne _]
      simp [relStepNone, hposb]
    | some pb =>
      rw [show ruleEffect L pa b (b, ModRelation.After) none
          = (if pa < pb then some ModRelation.After else none) from by
        simp [ruleEffect, hposb]]
      by_cases hlt : pa < pb
      · rw [if_pos hlt, foldRules_id l2 h2ne _]
        simp [relStepNone, hposb, hlt]
      · rw [if_neg hlt, foldRules_id l2 h2ne _]
        simp [relStepNone, hposb, hlt]
  | Incompatibility =>
    rw [if_neg (fun hc => by simpa using hdepany.mp hc)]
    rw [hsplit, List.foldl_append, List.foldl_cons, foldRules_id l1 h1ne none]
    cases hposb : get_index_of L b with
    | none =>
      rw [show ruleEffect L pa b (b, ModRelation.Incompatibility) none = none from by
        simp [ruleEffect, hposb]]
      rw [foldRules_id l2 h2ne _]
      simp [relStepNone, hposb]
    | some pb =>
      rw [show ruleEffect L pa b (b, ModRelation.Incompatibility) none
          = some ModRelation.Incompatibility from by
        simp [ruleEffect, hposb]]
      rw [foldRules_id l2 h2ne _]
      simp [relStepNone, hposb]

theorem singleRelEffect_some {L : List PackageId} {a b : PackageId}
    {r : ModRelation} {pa : Nat} (ha : get_index_of L a = some pa) :
    singleRelEffect L a b r = relStepNone L b pa r := by
  unfold singleRelEffect relStepNone
  rw [ha]

theorem entryEffect_single {L : List PackageId} {a b : PackageId}
    (e : PackageId × ModRules) (r : ModRelation) (h : entryRels a b e = [r]) :
    entryEffect L a b e none = singleRelEffect L a b r := by
  unfold entryRels at h
  by_cases he : e.1 = a
  · rw [if_pos he] at h
    have hfil : e.2.rules.filter (fun br => decide (br.1 = b)) = [(b, r)] := by
      cases hf : e.2.rules.filter (fun br => decide (br.1 = b)) with
      | nil =>
        rw [hf] at h
        simp at h
      | cons q t =>
        cases t with
        | nil =>
          rw [hf] at h
          simp only [List.map_cons, List.map_nil] at h
          injection h with h1
          have hqmem : q ∈ e.2.rules.filter (fun br => decide (br.1 = b)) := by
            rw [hf]
            exact List.mem_cons_self _ _
          have hq1 : q.1 = b := of_decide_eq_true (List.mem_filter.mp hqmem).2
          have : q = (b, r) := by
            obtain ⟨q1, q2⟩ := q
            simp only at hq1 h1
            rw [hq1, h1]
          rw [this]
        | cons q2 t2 =>
          rw [hf] at h
          have := congrArg List.length h
          simp at this
    unfold entryEffect
    rw [if_pos he]
    cases ha : get_index_of L a with
    | none => simp [singleRelEffect, ha]
    | some pa =>
      dsimp only
      rw [rulesetEffect_single e.2 r hfil, singleRelEffect_some ha]
  · rw [if_neg he] at h
    exact absurd h (by simp)

theorem srcFold_single {L : List PackageId} {a b : PackageId}
    (src : List (PackageId × ModRules)) (r : ModRelation)
    (h : srcRels a b src = [r]) :
    src.foldl (fun cur e => entryEffect L a b e cur) none = singleRelEffect L a b r := by
  induction src with
  | nil => simp [srcRels] at h
  | cons e tl ih =>
    rw [srcRels_cons] at h
    cases h1 : entryRels a b e with
    | nil =>
      rw [h1, List.nil_append] at h
      rw [List.foldl_cons, entryEffect_id e h1 none]
      exact ih h
    | cons y ys =>
      rw [h1, List.cons_append] at h
      injection h with hy htail
      rcases List.append_eq_nil.mp htail with ⟨hys, htl⟩
      rw [List.foldl_cons, entryEffect_single e r (by rw [h1, hy, hys])]
      exact srcFold_id tl htl _

theorem dbFold_id {L : List PackageId} {a b : PackageId} (db : ModRuleDb)
    (h : relsFor db a b = []) (cur : Option ModRelation) :
    db.foldl (fun cur s => s.2.foldl (fun cur e => entryEffect L a b e cur) cur) cur = cur := by
  induction db generalizing cur with
  | nil => rfl
  | cons s tl ih =>
    rw [relsFor_cons] at h
    rcases List.append_eq_nil.mp h with ⟨h1, h2⟩
    rw [List.foldl_cons, srcFold_id s.2 h1 cur]
    exact ih h2 cur

theorem issueFor_single {L : List PackageId} {db : ModRuleDb} {a b : PackageId}
    {r : ModRelation} (h : relsFor db a b = [r]) :
    issueFor L db a b = singleRelEffect L a b r := by
  unfold issueFor
  induction db with
  | nil => simp [relsFor] at h
  | cons s tl ih =>
    rw [relsFor_cons] at h
    cases h1 : srcRels a b s.2 with
    | nil =>
      rw [h1, List.nil_append] at h
      rw [List.foldl_cons, srcFold_id s.2 h1 none]
      exact ih h
    | cons y ys =>
      rw [h1, List.cons_append] at h
      injection h with hy htail
      rcases List.append_eq_nil.mp htail with ⟨hys, htl⟩
      rw [List.foldl_cons, srcFold_single s.2 r (by rw [h1, hy, hys])]
      exact dbFold_id tl htl _

theorem cacheVal_single_relation (L : List PackageId) (db : ModRuleDb)
    (a b : PackageId) (r : ModRelation) (h : relsFor db a b = [r]) :
    cacheVal (find_list_issues L db) a b = singleRelEffect L a b r := by
  rw [cacheVal_find_list_issues]
  exact issueFor_single h

/-- C3 amended.  All sources are consulted as a union in the sense that a
relation declared by any single source is binding whenever it is the only
declaration any source makes for that (declarer, target) pair: the cache
entry for the pair is then exactly the issue that relation produces
(`singleRelEffect`), no matter which source declared it and what other
sources declare about other pairs.  When several sources declare relations
for the same pair this fails: a later source's entry overwrites, and a later
`Dependency` with present target removes, the earlier source's issue
(`union_source_suppression_cex`). -/
theorem single_source_relation_binding (L : List PackageId) (db : ModRuleDb)
    (a b : PackageId) (r : ModRelation) (h : relsFor db a b = [r]) :
    cacheVal (find_list_issues L db) a b = singleRelEffect L a b r :=
  cacheVal_single_relation L db a b r h

/-- Witness for `single_source_relation_binding`: the lone relation
`A: Incompatible B` with both packages present yields the incompatibility
issue. -/
theorem single_source_relation_binding_witness :
    relsFor incompatDb pA pB = [ModRelation.Incompatibility] ∧
    cacheVal (find_list_issues [pA, pB] incompatDb) pA pB
      = singleRelEffect [pA, pB] pA pB ModRelation.Incompatibility ∧
    singleRelEffect [pA, pB] pA pB ModRelation.Incompatibility
      = some ModRelation.Incompatibility :=
  ⟨by decide,
   single_source_relation_binding [pA, pB] incompatDb pA pB ModRelation.Incompatibility (by decide),
   by decide⟩

theorem mem_get_index_of_isSome {L : List PackageId} {a : PackageId} (h : a ∈ L) :
    ∃ pa, get_index_of L a = some pa := by
  cases hpos : get_index_of L a with
  | none => exact absurd h ((get_index_of_eq_none_iff L a).mp hpos)
  | some pa => exact ⟨pa, rfl⟩

/-- C8.  Behaviour of a `Dependency` relation that is the only declaration
for its (declarer, target) pair, with the declarer present in the list: an
absent target is reported as a `Dependency` issue; a present target loading
after the declarer replaces it by an `After` issue; a present target loading
before the declarer leaves no issue for the pair.  Conjoined with the three
concrete examples of the specification for `A: Dependency C`. -/
theorem dependency_degrade_behavior :
    (∀ (L : List PackageId) (db : ModRuleDb) (a c : PackageId),
      relsFor db a c = [ModRelation.Dependency] → a ∈ L →
      ((c ∉ L → cacheVal (find_list_issues L db) a c = some ModRelation.Dependency) ∧
       (∀ pa pc, get_index_of L a = some pa → get_index_of L c = some pc → pa < pc →
          cacheVal (find_list_issues L db) a c = some ModRelation.After) ∧
       (∀ pa pc, get_index_of L a = some pa → get_index_of L c = some pc → pc < pa →
          cacheVal (find_list_issues L db) a c = none))) ∧
    find_list_issues [pA] depDb = [(pA, [(pC, ModRelation.Dependency)])] ∧
    find_list_issues [pC, pA] depDb = [] ∧
    find_list_issues [pA, pC] depDb = [(pA, [(pC, ModRelation.After)])] := by
  refine ⟨?_, by decide, by decide, by decide⟩
  intro L db a c hrels haL
  obtain ⟨pa, hpa⟩ := mem_get_index_of_isSome haL
  have hval := cacheVal_single_relation L db a c ModRelation.Dependency hrels
  refine ⟨?_, ?_, ?_⟩
  · intro hcL
    have hpc : get_index_of L c = none := (get_index_of_eq_none_iff L c).mpr hcL
    rw [hval]
    unfold singleRelEffect
    rw [hpa, hpc]
  · intro pa2 pc hpa2 hpc hlt
    rw [hval]
    unfold singleRelEffect
    rw [hpa2, hpc]
    simp [hlt]
  · intro pa2 pc hpa2 hpc hlt
    rw [hval]
    unfold singleRelEffect
    rw [hpa2, hpc]
    simp only []
    rw [if_neg (by omega)]

/-- Witness for `dependency_degrade_behavior` at the absent-target case of
the concrete database `A: Dependency C` with list `[A]`. -/
theorem dependency_degrade_behavior_witness :
    cacheVal (find_list_issues [pA] depDb) pA pC = some ModRelation.Dependency :=
  (dependency_degrade_behavior.1 [pA] depDb pA pC (by decide) (by decide)).1 (by decide)

theorem getAt_eq_none_iff {α : Type} (l : List α) (n : Nat) :
    getAt l n = none ↔ l.length ≤ n := by
  induction l generalizing n with
  | nil => simp [getAt]
  | cons x xs ih =>
    cases n with
    | zero => simp [getAt]
    | succ m => simpa [getAt, Nat.succ_le_succ_iff] using ih m

theorem getAt_some_lt {α : Type} {l : List α} {n : Nat} {x : α}
    (h : getAt l n = some x) : n < l.length := by
  by_contra hc
  rw [(getAt_eq_none_iff l n).mpr (by omega)] at h
  exact absurd h (by simp)

theorem getAt_mem {α : Type} {l : List α} {n : Nat} {x : α}
    (h : getAt l n = some x) : x ∈ l := by
  induction l generalizing n with
  | nil => simp [getAt] at h
  | cons y ys ih =>
    cases n with
    | zero =>
      rw [show getAt (y :: ys) 0 = some y from rfl] at h
      injection h with h
      exact h ▸ List.mem_cons_self _ _
    | succ m =>
      exact List.mem_cons_of_mem _ (ih h)

theorem eraseAt_length {α : Type} {l : List α} {n : Nat} (h : n < l.length) :
    (eraseAt l n).length = l.length - 1 := by
  induction l generalizing n with
  | nil => simp at h
  | cons x xs ih =>
    cases n with
    | zero => simp [eraseAt]
    | succ m =>
      have hm : m < xs.length := by simpa using h
      have := ih hm
      simp only [eraseAt, List.length_cons, this]
      omega

theorem insertAt_length {α : Type} (l : List α) (n : Nat) (a : α) :
    (insertAt l n a).length = l.length + 1 := by
  induction l generalizing n with
  | nil => cases n <;> simp [insertAt]
  | cons x xs ih =>
    cases n with
    | zero => simp [insertAt]
    | succ m => simp [insertAt, ih m]

theorem move_index_length {α : Type} (l : List α) (i j : Nat) :
    (move_index l i j).length = l.length := by
  unfold move_index
  cases hg : getAt l i with
  | none => rfl
  | some x =>
    have hi := getAt_some_lt hg
    rw [insertAt_length, eraseAt_length hi]
    omega

theorem find_list_issues_entry_ne_nil {L : List PackageId} {db : ModRuleDb}
    {x : PackageId} {m : Issues} (hm : (x, m) ∈ find_list_issues L db) : m ≠ [] := by
  intro he
  subst he
  have h2 := (List.mem_filter.mp (by unfold find_list_issues at hm; exact hm)).2
  simp at h2

theorem cache_entry_val {L : List PackageId} {db : ModRuleDb} {x : PackageId}
    {m : Issues} {b : PackageId} {r : ModRelation}
    (hm : (x, m) ∈ find_list_issues L db) (hbr : (b, r) ∈ m) :
    cacheVal (find_list_issues L db) x b = some r := by
  have hlk := mem_lookupA (NodupKeys_find_list_issues L db) hm
  unfold cacheVal getInner
  rw [hlk]
  exact mem_lookupA (InnerOk_find_list_issues L db (x, m) hm) hbr

theorem target_present_of_entry {L : List PackageId} {db : ModRuleDb}
    {x : PackageId} {m : Issues} {b : PackageId} {r : ModRelation}
    (hm : (x, m) ∈ find_list_issues L db) (hbr : (b, r) ∈ m)
    (hr : r ≠ ModRelation.Dependency) : ∃ pb, get_index_of L b = some pb := by
  have hval := cache_entry_val hm hbr
  rw [cacheVal_find_list_issues] at hval
  have hshape := shapeOk_issueFor L db x b
  rw [hval] at hshape
  have hpos : get_index_of L b ≠ none := by
    cases r with
    | Dependency => exact absurd rfl hr
    | Before => simpa [shapeOk] using hshape
    | After => simpa [shapeOk] using hshape
    | Incompatibility => simpa [shapeOk] using hshape
  cases hg : get_index_of L b with
  | none => exact absurd hg hpos
  | some pb => exact ⟨pb, rfl⟩

theorem autofixStep_fresh_cases (db : ModRuleDb) (s : LoopState)
    (hfresh : s.cache = find_list_issues s.active db)
    (hidx : s.index < s.active.length) :
    (∃ b s2, autofixStep db s = StepRes.ret b s2) ∨
    (∃ s2, autofixStep db s = StepRes.next s2 ∧
      s2.cache = find_list_issues s2.active db ∧
      s2.index < s2.active.length) := by
  obtain ⟨p, hp⟩ : ∃ p, getAt s.active s.index = some p := by
    cases hg : getAt s.active s.index with
    | none =>
      have := (getAt_eq_none_iff _ _).mp hg
      omega
    | some p => exact ⟨p, rfl⟩
  unfold autofixStep
  rw [hp]
  dsimp only
  cases hl : lookupA p s.cache with
  | none =>
    dsimp only
    right
    refine ⟨_, rfl, hfresh, ?_⟩
    dsimp only
    by_cases hwrap : s.index + 1 ≥ s.active.length
    · rw [if_pos hwrap]
      omega
    · rw [if_neg hwrap]
      omega
  | some m =>
    dsimp only
    have hmem : (p, m) ∈ find_list_issues s.active db := by
      rw [← hfresh]
      exact lookupA_mem hl
    have hmne : m ≠ [] := find_list_issues_entry_ne_nil hmem
    obtain ⟨t, r, m2, hm⟩ : ∃ t r m2, m = (t, r) :: m2 := by
      cases m with
      | nil => exact absurd rfl hmne
      | cons q m2 => exact ⟨q.1, q.2, m2, by rw [Prod.mk.eta]⟩
    have hhead : m.head? = some (t, r) := by rw [hm]; rfl
    rw [hhead]
    dsimp only
    have hbr : (t, r) ∈ m := by rw [hm]; exact List.mem_cons_self _ _
    by_cases hchk : s.checker = 0
    · rw [if_pos hchk]
      exact Or.inl ⟨false, s, rfl⟩
    · rw [if_neg hchk]
      cases r with
      | Before =>
        obtain ⟨ip, hip⟩ := mem_get_index_of_isSome (getAt_mem hp)
        obtain ⟨it, hit⟩ := target_present_of_entry hmem hbr (by simp)
        dsimp only
        rw [hip, hit]
        dsimp only
        right
        refine ⟨_, rfl, rfl, ?_⟩
        dsimp only
        split <;> rw [move_index_length] <;> exact hidx
      | After =>
        obtain ⟨ip, hip⟩ := mem_get_index_of_isSome (getAt_mem hp)
        obtain ⟨it, hit⟩ := target_present_of_entry hmem hbr (by simp)
        dsimp only
        rw [hip, hit]
        dsimp only
        right
        refine ⟨_, rfl, rfl, ?_⟩
        dsimp only
        split <;> rw [move_index_length] <;> exact hidx
      | Dependency =>
        dsimp only
        by_cases hin : t ∈ s.inactive
        · rw [if_pos hin]
          right
          refine ⟨_, rfl, rfl, ?_⟩
          dsimp only
          by_cases hact : t ∈ s.active
          · rw [if_pos hact]
            exact hidx
          · rw [if_neg hact]
            rw [List.length_append]
            simp only [List.length_singleton]
            omega
        · rw [if_neg hin]
          exact Or.inl ⟨false, s, rfl⟩
      | Incompatibility =>
        exact Or.inl ⟨false, s, rfl⟩

/-- Started from any state whose cache is freshly computed for its active
list (and whose index is in range when the cache is nonempty), the repair
loop never panics, for any amount of fuel. -/
theorem autofixLoop_no_panic (db : ModRuleDb) (fuel : Nat) (s : LoopState)
    (hfresh : s.cache = find_list_issues s.active db)
    (hidx : s.cache ≠ [] → s.index < s.active.length) :
    autofixLoop db fuel s ≠ AutofixResult.panic := by
  induction fuel generalizing s with
  | zero => simp [autofixLoop]
  | succ n ih =>
    rw [autofixLoop]
    by_cases hce : s.cache = []
    · rw [if_pos hce]
      simp
    · rw [if_neg hce]
      rcases autofixStep_fresh_cases db s hfresh (hidx hce) with ⟨b, s2, hstep⟩ | ⟨s2, hstep, hf2, hi2⟩
      · rw [hstep]
        simp
      · rw [hstep]
        exact ih s2 hf2 (fun _ => hi2)

/-- C4 amended.  `autofix` never panics on inputs whose issue cache is
freshly computed from the active list and the database; failure is then
reported only through the boolean result.  (With a stale cache it can
panic: `autofix_stale_cache_panics`.) -/
theorem autofix_fresh_cache_no_panic (db : ModRuleDb)
    (active inactive : List PackageId) (fuel : Nat) :
    autofix db active inactive (find_list_issues active db) fuel ≠ AutofixResult.panic := by
  unfold autofix
  apply autofixLoop_no_panic
  · rfl
  · intro hne
    dsimp only at hne ⊢
    cases hc : find_list_issues active db with
    | nil => exact absurd hc hne
    | cons e t =>
      have hmem : e ∈ find_list_issues active db := by
        rw [hc]
        exact List.mem_cons_self _ _
      have hkey := KeysOk_find_list_issues active db e hmem
      have hmem2 : e.1 ∈ active := by
        by_contra hc2
        exact hkey ((get_index_of_eq_none_iff _ _).mpr hc2)
      cases active with
      | nil => simp at hmem2
      | cons x xs => simp

theorem getAt_append_add {α : Type} (u : List α) (l : List α) (n : Nat) :
    getAt (u ++ l) (u.length + n) = getAt l n := by
  induction u with
  | nil => simp [getAt]
  | cons y u2 ih =>
    rw [List.cons_append, List.length_cons,
      show u2.length + 1 + n = (u2.length + n) + 1 from by omega]
    exact ih

theorem getAt_append_self {α : Type} (u : List α) (z : α) (l : List α) :
    getAt (u ++ z :: l) u.length = some z := by
  have := getAt_append_add u (z :: l) 0
  simpa using this

theorem eraseAt_append_add {α : Type} (u : List α) (l : List α) (n : Nat) :
    eraseAt (u ++ l) (u.length + n) = u ++ eraseAt l n := by
  induction u with
  | nil => simp [eraseAt]
  | cons y u2 ih =>
    rw [List.cons_append, List.length_cons,
      show u2.length + 1 + n = (u2.length + n) + 1 from by omega]
    rw [show eraseAt (y :: (u2 ++ l)) ((u2.length + n) + 1) = y :: eraseAt (u2 ++ l) (u2.length + n) from rfl]
    rw [ih, List.cons_append]

theorem eraseAt_append_self {α : Type} (u : List α) (z : α) (l : List α) :
    eraseAt (u ++ z :: l) u.length = u ++ l := by
  have := eraseAt_append_add u (z :: l) 0
  simpa [eraseAt] using this

theorem insertAt_append_add {α : Type} (u : List α) (l : List α) (n : Nat) (a : α) :
    insertAt (u ++ l) (u.length + n) a = u ++ insertAt l n a := by
  induction u with
  | nil => simp
  | cons y u2 ih =>
    rw [List.cons_append, List.length_cons,
      show u2.length + 1 + n = (u2.length + n) + 1 from by omega]
    rw [show insertAt (y :: (u2 ++ l)) ((u2.length + n) + 1) a
        = y :: insertAt (u2 ++ l) (u2.length + n) a from rfl]
    rw [ih, List.cons_append]

theorem insertAt_append_self {α : Type} (u : List α) (l : List α) (a : α) :
    insertAt (u ++ l) u.length a = u ++ a :: l := by
  have := insertAt_append_add u l 0 a
  simpa [insertAt] using this

theorem get_index_of_append_first {u : List PackageId} {x : PackageId}
    (l : List PackageId) (hx : x ∉ u) :
    get_index_of (u ++ x :: l) x = some u.length := by
  induction u with
  | nil => simp [get_index_of]
  | cons y u2 ih =>
    have hyx : ¬ y = x := by
      intro he
      exact hx (he ▸ List.mem_cons_self _ _)
    have hx2 : x ∉ u2 := fun hc => hx (List.mem_cons_of_mem _ hc)
    rw [List.cons_append,
      show get_index_of (y :: (u2 ++ x :: l)) x
        = if y = x then some 0 else (get_index_of (u2 ++ x :: l) x).map (· + 1) from rfl,
      if_neg hyx, ih hx2]
    simp

theorem get_index_of_append_second {u v : List PackageId} {x y : PackageId}
    (w : List PackageId) (hyu : y ∉ u) (hxy : x ≠ y) (hyv : y ∉ v) :
    get_index_of (u ++ x :: (v ++ y :: w)) y = some (u.length + v.length + 1) := by
  induction u with
  | nil =>
    have hxy2 : ¬ x = y := hxy
    rw [List.nil_append,
      show get_index_of (x :: (v ++ y :: w)) y
        = if x = y then some 0 else (get_index_of (v ++ y :: w) y).map (· + 1) from rfl,
      if_neg hxy2, get_index_of_append_first w hyv]
    simp [Nat.add_comm]
  | cons z u2 ih =>
    have hzy : ¬ z = y := by
      intro he
      exact hyu (he ▸ List.mem_cons_self _ _)
    have hyu2 : y ∉ u2 := fun hc => hyu (List.mem_cons_of_mem _ hc)
    rw [List.cons_append,
      show get_index_of (z :: (u2 ++ x :: (v ++ y :: w))) y
        = if z = y then some 0
          else (get_index_of (u2 ++ x :: (v ++ y :: w)) y).map (· + 1) from rfl,
      if_neg hzy, ih hyu2]
    simp only [Option.map_some', List.length_cons, Option.some.injEq]
    omega

theorem move_second_to_first {α : Type} (u v w : List α) (x y : α) :
    move_index (u ++ x :: (v ++ y :: w)) (u.length + v.length + 1) u.length
      = u ++ y :: x :: (v ++ w) := by
  unfold move_index
  rw [show u.length + v.length + 1 = u.length + (v.length + 1) from by omega,
    getAt_append_add u (x :: (v ++ y :: w)) (v.length + 1),
    show getAt (x :: (v ++ y :: w)) (v.length + 1) = getAt (v ++ y :: w) v.length from rfl,
    getAt_append_self v y w]
  dsimp only
  rw [eraseAt_append_add u (x :: (v ++ y :: w)) (v.length + 1),
    show eraseAt (x :: (v ++ y :: w)) (v.length + 1)
      = x :: eraseAt (v ++ y :: w) v.length from rfl,
    eraseAt_append_self v y w]
  rw [insertAt_append_self u (x :: (v ++ w)) y]

theorem move_first_to_second {α : Type} (u v w : List α) (x y : α) :
    move_index (u ++ x :: (v ++ y :: w)) u.length (u.length + v.length + 1)
      = u ++ (v ++ y :: x :: w) := by
  unfold move_index
  rw [getAt_append_self u x (v ++ y :: w)]
  dsimp only
  rw [eraseAt_append_self u x (v ++ y :: w)]
  rw [show u ++ (v ++ y :: w) = (u ++ v) ++ y :: w from by simp]
  rw [show u.length + v.length + 1 = (u ++ v).length + 1 from by simp]
  rw [show insertAt ((u ++ v) ++ y :: w) ((u ++ v).length + 1) x
      = (u ++ v) ++ insertAt (y :: w) 1 x from insertAt_append_add (u ++ v) (y :: w) 1 x]
  simp [insertAt]

theorem nodup_decomp {u v w : List PackageId} {x y : PackageId}
    (h : (u ++ x :: (v ++ y :: w)).Nodup) :
    x ∉ u ∧ y ∉ u ∧ y ∉ v ∧ x ≠ y := by
  obtain ⟨h1, h2, hdisj⟩ := List.nodup_append.mp h
  obtain ⟨hx1, h3⟩ := List.nodup_cons.mp h2
  obtain ⟨h4, h5, hdisj2⟩ := List.nodup_append.mp h3
  refine ⟨?_, ?_, ?_, ?_⟩
  · intro hc
    exact hdisj hc (List.mem_cons_self _ _)
  · intro hc
    exact hdisj hc (List.mem_cons_of_mem _ (List.mem_append_right _ (List.mem_cons_self _ _)))
  · intro hc
    exact hdisj2 hc (List.mem_cons_self _ _)
  · intro hc
    exact hx1 (hc ▸ List.mem_append_right _ (List.mem_cons_self _ _))

theorem autofixStep_beforeafter (db : ModRuleDb) (s : LoopState)
    (p t : PackageId) (r : ModRelation) (m2 : Issues) (ip it : Nat)
    (hp : getAt s.active s.index = some p)
    (hl : lookupA p s.cache = some ((t, r) :: m2))
    (hr : r = ModRelation.Before ∨ r = ModRelation.After)
    (hchk : ¬ s.checker = 0)
    (hip : get_index_of s.active p = some ip)
    (hit : get_index_of s.active t = some it) :
    autofixStep db s = StepRes.next { s with
      active := (if (lookupA (p, t) s.tracker).getD false
        then move_index s.active ip it else move_index s.active it ip),
      tracker := insertA (p, t) (!(lookupA (p, t) s.tracker).getD false) s.tracker,
      cache := find_list_issues
        (if (lookupA (p, t) s.tracker).getD false
          then move_index s.active ip it else move_index s.active it ip) db } := by
  unfold autofixStep
  rw [hp]
  dsimp only
  rw [hl]
  dsimp only
  rw [show ((t, r) :: m2).head? = some (t, r) from rfl]
  dsimp only
  rw [if_neg hchk]
  rcases hr with rfl | rfl
  · dsimp only
    rw [hip, hit]
  · dsimp only
    rw [hip, hit]

/-- C6 amended.  When `autofix` repairs a `Before` or `After` issue between
the current package `p` and its target `t`, the toggle flag is keyed by the
ordered pair `(p, t)`: encounters in the opposite orientation use an
independent flag (`toggle_ordered_pair_cex`).  If the flag is absent or
`false`, the target `t` is moved to `p`'s current index — landing
immediately before `p` when `t` was after `p`, and immediately after `p`
when `t` was before `p`; if the flag is `true`, `p` is moved to `t`'s
current index symmetrically.  The flag for `(p, t)` is then set to its
negation.  The four conjuncts cover flag `false`/`true` crossed with the
two relative orders of `p` and `t` in the active list. -/
theorem autofix_toggle_step_behavior (db : ModRuleDb) (s : LoopState)
    (p t : PackageId) (r : ModRelation) (m2 : Issues) (u v w : List PackageId)
    (hl : lookupA p s.cache = some ((t, r) :: m2))
    (hr : r = ModRelation.Before ∨ r = ModRelation.After)
    (hchk : ¬ s.checker = 0) (hnd : s.active.Nodup) :
    ((s.active = u ++ p :: (v ++ t :: w) → s.index = u.length →
      (lookupA (p, t) s.tracker).getD false = false →
      autofixStep db s = StepRes.next { s with
        active := u ++ t :: p :: (v ++ w),
        tracker := insertA (p, t) true s.tracker,
        cache := find_list_issues (u ++ t :: p :: (v ++ w)) db }) ∧
     (s.active = u ++ t :: (v ++ p :: w) → s.index = u.length + v.length + 1 →
      (lookupA (p, t) s.tracker).getD false = false →
      autofixStep db s = StepRes.next { s with
        active := u ++ (v ++ p :: t :: w),
        tracker := insertA (p, t) true s.tracker,
        cache := find_list_issues (u ++ (v ++ p :: t :: w)) db }) ∧
     (s.active = u ++ p :: (v ++ t :: w) → s.index = u.length →
      (lookupA (p, t) s.tracker).getD false = true →
      autofixStep db s = StepRes.next { s with
        active := u ++ (v ++ t :: p :: w),
        tracker := insertA (p, t) false s.tracker,
        cache := find_list_issues (u ++ (v ++ t :: p :: w)) db }) ∧
     (s.active = u ++ t :: (v ++ p :: w) → s.index = u.length + v.length + 1 →
      (lookupA (p, t) s.tracker).getD false = true →
      autofixStep db s = StepRes.next { s with
        active := u ++ p :: t :: (v ++ w),
        tracker := insertA (p, t) false s.tracker,
        cache := find_list_issues (u ++ p :: t :: (v ++ w)) db })) := by
  refine ⟨?_, ?_, ?_, ?_⟩
  · intro h1 hi hflag
    obtain ⟨hpu, htu, htv, hpt⟩ := nodup_decomp (h1 ▸ hnd)
    have hp : getAt s.active s.index = some p := by
      rw [h1, hi]
      exact getAt_append_self u p (v ++ t :: w)
    have hip : get_index_of s.active p = some u.length := by
      rw [h1]
      exact get_index_of_append_first _ hpu
    have hit : get_index_of s.active t = some (u.length + v.length + 1) := by
      rw [h1]
      exact get_index_of_append_second _ htu hpt htv
    rw [autofixStep_beforeafter db s p t r m2 u.length (u.length + v.length + 1)
      hp hl hr hchk hip hit, hflag]
    rw [if_neg (by simp : ¬ (false = true))]
    rw [show move_index s.active (u.length + v.length + 1) u.length
        = u ++ t :: p :: (v ++ w) from by
      rw [h1]
      exact move_second_to_first u v w p t]
    rw [show (!false) = true from rfl]
  · intro h1 hi hflag
    obtain ⟨htu2, hpu2, hpv2, htp2⟩ := nodup_decomp (h1 ▸ hnd)
    have hp : getAt s.active s.index = some p := by
      rw [h1, hi,
        show u.length + v.length + 1 = u.length + (v.length + 1) from by omega,
        getAt_append_add u (t :: (v ++ p :: w)) (v.length + 1),
        show getAt (t :: (v ++ p :: w)) (v.length + 1) = getAt (v ++ p :: w) v.length from rfl]
      exact getAt_append_self v p w
    have hip : get_index_of s.active p = some (u.length + v.length + 1) := by
      rw [h1]
      exact get_index_of_append_second _ hpu2 htp2 hpv2
    have hit : get_index_of s.active t = some u.length := by
      rw [h1]
      exact get_index_of_append_first _ htu2
    rw [autofixStep_beforeafter db s p t r m2 (u.length + v.length + 1) u.length
      hp hl hr hchk hip hit, hflag]
    rw [if_neg (by simp : ¬ (false = true))]
    rw [show move_index s.active u.length (u.length + v.length + 1)
        = u ++ (v ++ p :: t :: w) from by
      rw [h1]
      exact move_first_to_second u v w t p]
    rw [show (!false) = true from rfl]
  · intro h1 hi hflag
    obtain ⟨hpu, htu, htv, hpt⟩ := nodup_decomp (h1 ▸ hnd)
    have hp : getAt s.active s.index = some p := by
      rw [h1, hi]
      exact getAt_append_self u p (v ++ t :: w)
    have hip : get_index_of s.active p = some u.length := by
      rw [h1]
      exact get_index_of_append_first _ hpu
    have hit : get_index_of s.active t = some (u.length + v.length + 1) := by
      rw [h1]
      exact get_index_of_append_second _ htu hpt htv
    rw [autofixStep_beforeafter db s p t r m2 u.length (u.length + v.length + 1)
      hp hl hr hchk hip hit, hflag]
    rw [if_pos (rfl : true = true)]
    rw [show move_index s.active u.length (u.length + v.length + 1)
        = u ++ (v ++ t :: p :: w) from by
      rw [h1]
      exact move_first_to_second u v w p t]
    rw [show (!true) = false from rfl]
  · intro h1 hi hflag
    obtain ⟨htu2, hpu2, hpv2, htp2⟩ := nodup_decomp (h1 ▸ hnd)
    have hp : getAt s.active s.index = some p := by
      rw [h1, hi,
        show u.length + v.length + 1 = u.length + (v.length + 1) from by omega,
        getAt_append_add u (t :: (v ++ p :: w)) (v.length + 1),
        show getAt (t :: (v ++ p :: w)) (v.length + 1) = getAt (v ++ p :: w) v.length from rfl]
      exact getAt_append_self v p w
    have hip : get_index_of s.active p = some (u.length + v.length + 1) := by
      rw [h1]
      exact get_index_of_append_second _ hpu2 htp2 hpv2
    have hit : get_index_of s.active t = some u.length := by
      rw [h1]
      exact get_index_of_append_first _ htu2
    rw [autofixStep_beforeafter db s p t r m2 (u.length + v.length + 1) u.length
      hp hl hr hchk hip hit, hflag]
    rw [if_pos (rfl : true = true)]
    rw [show move_index s.active (u.length + v.length + 1) u.length
        = u ++ p :: t :: (v ++ w) from by
      rw [h1]
      exact move_second_to_first u v w t p]
    rw [show (!true) = false from rfl]

/-- Witness for `autofix_toggle_step_behavior` at the concrete state `w1`
(database `A: Before B`, active `[B, A]`, current package `A`, target `B`,
flag absent): the target is moved to the current package's index. -/
theorem autofix_toggle_step_behavior_witness :
    autofixStep beforeDb w1 = StepRes.next { w1 with
      active := [] ++ ([] ++ pA :: pB :: []),
      tracker := insertA (pA, pB) true w1.tracker,
      cache := find_list_issues ([] ++ ([] ++ pA :: pB :: [])) beforeDb } :=
  (autofix_toggle_step_behavior beforeDb w1 pA pB ModRelation.Before [] [] [] []
    (by decide) (Or.inl rfl) (by decide) (by decide)).2.1 (by decide) (by decide) (by decide)
